import Mathlib

/-!
# Shallow embedding of the horntail archive decoder

This file embeds the decoding core of the `horntail` library (a Rust reader
for the proprietary `.wz` / `.ms` archive formats) and proves the properties
stated by its specification.

Modelling conventions:
* Machine integers are `Nat` (unsigned views) or `Int` (signed views), with
  wrapping arithmetic written explicitly (`% 2^32`, two's complement
  conversions).  Arithmetic overflow follows the release-build (wrapping)
  semantics the spec describes.
* Rust panics, aborts and divergence have no value of the library's `Error`
  type; they are modelled by the dedicated constructors `Err.panic` and
  `Err.diverge`, which are distinct from every structured error.
* External collaborators (AES block encryption, the zlib inflater, the
  `encoding_rs` Windows-1252 decoder, the big SNOW 2.0 lookup tables living
  in `crypto/snow2_box.rs`) are taken as parameters of the embedded
  functions, exactly as the spec treats them as black boxes.
-/

namespace Horntail

/-- `2^32`, the modulus of all `u32` wrapping arithmetic. -/
def U32 : Nat := 4294967296

/-- `2^16`, the modulus of `u16` arithmetic. -/
def U16 : Nat := 65536

/-- `2^64`, the modulus of `usize`/`u64` arithmetic (64-bit target). -/
def U64 : Nat := 18446744073709551616

/-- Interpret a byte as Rust `i8` (two's complement). -/
def toI8 (b : Nat) : Int := if b % 256 < 128 then (b % 256 : Int) else (b % 256 : Int) - 256

/-- Interpret a `u32`-range natural as Rust `i32` (two's complement). -/
def toI32 (n : Nat) : Int := if n % U32 < 2147483648 then (n % U32 : Int) else (n % U32 : Int) - (U32 : Int)

/-- Interpret a `u16`-range natural as Rust `i16` (two's complement). -/
def toI16 (n : Nat) : Int := if n % U16 < 32768 then (n % U16 : Int) else (n % U16 : Int) - (U16 : Int)

/-- Two's-complement re-interpretation of an `Int` as `u32` (Rust `as u32`). -/
def ofI32 (i : Int) : Nat := (i % (U32 : Int)).toNat

/-- Two's-complement re-interpretation of an `Int` as `u64`/`usize`. -/
def ofI64 (i : Int) : Nat := (i % (U64 : Int)).toNat

/-- Little-endian `u16` from two bytes. -/
def u16le (b0 b1 : Nat) : Nat := b0 % 256 + (b1 % 256) * 256

/-- Little-endian `u32` from four bytes. -/
def u32le (b0 b1 b2 b3 : Nat) : Nat :=
  b0 % 256 + (b1 % 256) * 256 + (b2 % 256) * 65536 + (b3 % 256) * 16777216

/-- Little-endian `u32` from the first four entries of a byte list
(missing entries read as zero, matching the zero-initialised read buffer
of the accessor's `buf_get_impl`). -/
def u32leOf (l : List Nat) : Nat :=
  u32le (l.getD 0 0) (l.getD 1 0) (l.getD 2 0) (l.getD 3 0)

/-- Little-endian `u16` from the first two entries of a byte list. -/
def u16leOf (l : List Nat) : Nat := u16le (l.getD 0 0) (l.getD 1 0)

/-- Little-endian `u64` from the first eight entries of a byte list. -/
def u64leOf (l : List Nat) : Nat :=
  (List.range 8).foldr (fun i acc => l.getD i 0 % 256 + 256 * acc) 0

/-- Little-endian byte encoding of a `u32` value (`to_le_bytes`). -/
def leBytes32 (n : Nat) : List Nat :=
  [n % 256, n / 256 % 256, n / 65536 % 256, n / 16777216 % 256]

/-- Point update of a `Nat`-indexed register file (`state[i] = v`). -/
def upd (f : Nat → Nat) (i v : Nat) : Nat → Nat := fun j => if j = i then v else f j

/-! ## SNOW 2.0 core (`src/horntail/src/crypto/snow2.rs`)

The four 8→32 lookup tables `S0..S3` and the two multiplication tables
`ALPHA_MUL` / `ALPHA_INV_MUL` live in `crypto/snow2_box.rs`, which is not
part of the sources; following the spec they are abstract 8-bit-indexed
tables, so `a_mul`, `ainv_mul` and `sbox` are parameterised by them. -/

/-- `fn a_mul(n: u32) -> u32 { (n << 8) ^ ALPHA_MUL[(n >> 24) as usize] }`
with the table `t` abstract. -/
def aMulT (t : Nat → Nat) (n : Nat) : Nat := ((n % U32) <<< 8) % U32 ^^^ t ((n % U32) >>> 24)

/-- `fn ainv_mul(n: u32) -> u32 { (n >> 8) ^ ALPHA_INV_MUL[(n & 0xff) as usize] }`. -/
def ainvMulT (t : Nat → Nat) (n : Nat) : Nat := ((n % U32) >>> 8) ^^^ t (n % 256)

/-- `fn sbox(n: u32) -> u32` : XOR of the four byte-indexed tables. -/
def sboxT (s0 s1 s2 s3 : Nat → Nat) (n : Nat) : Nat :=
  s0 (n % 256) ^^^ s1 ((n >>> 8) % 256) ^^^ s2 ((n >>> 16) % 256) ^^^ s3 ((n >>> 24) % 256)

/-- The SNOW 2.0 core state: 16-word LFSR, FSM registers, rotating index.
`state` is a total register file; only indices `0..15` are ever touched. -/
structure Snow2St where
  state : Nat → Nat
  r1 : Nat
  r2 : Nat
  cur : Nat

/-- One keystream step, from `impl Iterator for Snow2 { fn next }`:
updates the LFSR slot at `cur`, steps the FSM, advances `cur`, and returns
the new state together with the output word. -/
def snow2Next (aMul ainvMul sbox : Nat → Nat) (st : Snow2St) : Snow2St × Nat :=
  let cur := st.cur
  let s' := upd st.state cur
    (aMul (st.state cur) ^^^ st.state ((cur + 2) % 16) ^^^ ainvMul (st.state ((cur + 11) % 16)))
  let fsm := (st.r2 + s' ((cur + 5) % 16)) % U32
  let r2' := sbox st.r1
  let r1' := fsm
  let cur' := (cur + 1) % 16
  (⟨s', r1', r2', cur'⟩, (r1' + s' cur) % U32 ^^^ r2' ^^^ s' cur')

/-- One key-schedule round, from `fn round_state`: the LFSR update
additionally XORs in `(r1 + s[(index+15)%16]) ^ r2`, and the pair
`(r2 + s[(index+5)%16], sbox r1)` becomes the new `(r1, r2)`. -/
def roundState (aMul ainvMul sbox : Nat → Nat) (state : Nat → Nat) (r1 r2 index : Nat) :
    (Nat → Nat) × Nat × Nat :=
  let s' := upd state (index % 16)
    (aMul (state (index % 16)) ^^^ state ((index + 2) % 16) ^^^ ainvMul (state ((index + 11) % 16))
      ^^^ ((r1 + state ((index + 15) % 16)) % U32 ^^^ r2))
  (s', (r2 + s' ((index + 5) % 16)) % U32, sbox r1)

/-- The keystream step exactly as the spec states it (C1): update
`s[cur] ← α(s[cur]) ⊕ s[(cur+2)%16] ⊕ α⁻¹(s[(cur+11)%16])`, compute
`fsm = r2 + s[(cur+5)%16]` wrapping, set `r2 ← sbox r1`, `r1 ← fsm`,
advance `cur`, and output `(r1 + s[prev_cur]) ⊕ r2 ⊕ s[cur]` with the
updated registers. -/
def specKeystreamStep (alpha alphaInv sbox : Nat → Nat) (st : Snow2St) : Snow2St × Nat :=
  let prevCur := st.cur
  let s' := upd st.state prevCur
    (alpha (st.state prevCur) ^^^ st.state ((prevCur + 2) % 16)
      ^^^ alphaInv (st.state ((prevCur + 11) % 16)))
  let fsm := (st.r2 + s' ((prevCur + 5) % 16)) % U32
  let st' : Snow2St := ⟨s', fsm, sbox st.r1, (prevCur + 1) % 16⟩
  (st', (st'.r1 + s' prevCur) % U32 ^^^ st'.r2 ^^^ s' st'.cur)

/-- The key-schedule round exactly as the spec states it (C1): the same
update as `specKeystreamStep`, but with `(r1 + s[(cur+15)%16]) ⊕ r2`
additionally XOR'd into the LFSR-update result and the output discarded. -/
def specKeyScheduleRound (alpha alphaInv sbox : Nat → Nat) (state : Nat → Nat)
    (r1 r2 cur : Nat) : (Nat → Nat) × Nat × Nat :=
  let s' := upd state cur
    (alpha (state cur) ^^^ state ((cur + 2) % 16) ^^^ alphaInv (state ((cur + 11) % 16))
      ^^^ ((r1 + state ((cur + 15) % 16)) % U32 ^^^ r2))
  let fsm := (r2 + s' ((cur + 5) % 16)) % U32
  (s', fsm, sbox r1)

/-- Rust panics/aborts and divergence are not values of the library's
`Error` enum (`src/horntail/src/error.rs`); they get dedicated
constructors so the embedding can distinguish "returns a structured
error" from "crashes". -/
inductive Err where
  | io
  | brokenFile
  | invalidVersion
  | unexpectedData (msg : String)
  | invalidCharacter
  | invalidCipher
  | invalidDataType
  | invalidArgument
  | panic (msg : String)
  | diverge
  deriving DecidableEq, Repr

/-- `Snow2::crypt` word transform: `(w + k) mod 2^32` on encrypt,
`(w - k) mod 2^32` on decrypt. -/
def cryptWord (isEnc : Bool) (w k : Nat) : Nat :=
  if isEnc then (w + k) % U32 else (w % U32 + U32 - k % U32) % U32

/-- Word-by-word processing of `Snow2::crypt`'s loop: each 4-byte chunk is
decoded little-endian, combined with the next keystream word, and
re-encoded. -/
def snow2CryptWords (aMul ainvMul sbox : Nat → Nat) (isEnc : Bool) :
    List (List Nat) → Snow2St → List (List Nat) × Snow2St
  | [], st => ([], st)
  | c :: rest, st =>
    let (st', k) := snow2Next aMul ainvMul sbox st
    let w := u32leOf c
    let (tail, stFin) := snow2CryptWords aMul ainvMul sbox isEnc rest st'
    (leBytes32 (cryptWord isEnc w k) :: tail, stFin)

/-- Split a byte list into exact 4-byte chunks (defined only when the
length is a multiple of 4, mirroring `chunks_mut(4)` on such buffers). -/
def chunks4 : List Nat → List (List Nat)
  | b0 :: b1 :: b2 :: b3 :: rest => [b0, b1, b2, b3] :: chunks4 rest
  | _ => []

/-- `Snow2::crypt(dst, is_enc)` from the source: panics when `dst.len()`
is not a multiple of 4, otherwise replaces each little-endian word `w`
by `w ± k` (wrapping) for successive keystream words `k`. -/
def snow2Crypt (aMul ainvMul sbox : Nat → Nat) (dst : List Nat) (isEnc : Bool) (st : Snow2St) :
    Except Err (List Nat × Snow2St) :=
  if dst.length % 4 ≠ 0 then .error (.panic "invalid destination length")
  else
    let p := snow2CryptWords aMul ainvMul sbox isEnc (chunks4 dst) st
    .ok (p.1.flatten, p.2)

/-- The keystream words drawn by `n` successive `Snow2::next` calls. -/
def snow2Keystream (aMul ainvMul sbox : Nat → Nat) : Nat → Snow2St → List Nat × Snow2St
  | 0, st => ([], st)
  | n + 1, st =>
    let (st', k) := snow2Next aMul ainvMul sbox st
    let (ks, stFin) := snow2Keystream aMul ainvMul sbox n st'
    (k :: ks, stFin)

/-! ## Byte-stream accessor (`src/horntail/src/reader/{binary,accessor}.rs`)

`BinaryAccessor` is a cursor over an in-memory byte slice carrying a
boxed `MapleCipher`.  The cipher is abstract here: a state of type `C`
together with a transform `cf : C → List Nat → List Nat × C`
(`MapleCipher::crypt` rewrites the buffer and may mutate the cipher). -/

/-- Accessor state: the mapped bytes, the cursor, and the cipher state. -/
structure St (C : Type) where
  data : List Nat
  pos : Nat
  cst : C

/-- Fresh accessor over a byte slice (`BinaryAccessor::new`). -/
def stOf {C : Type} (c : C) (data : List Nat) : St C := ⟨data, 0, c⟩

/-- `Read::read` on the accessor: reads from `min(pos, len)` up to `n`
bytes and advances `pos` by the count actually read. -/
def rawRead {C : Type} (n : Nat) (st : St C) : List Nat × St C :=
  let bs := (st.data.drop (min st.pos st.data.length)).take n
  (bs, { st with pos := st.pos + bs.length })

/-- `copy_to_slice`: panics unless exactly `n` bytes could be read. -/
def copyToSlice {C : Type} (n : Nat) (st : St C) : Except Err (List Nat × St C) :=
  let (bs, st') := rawRead n st
  if bs.length = n then .ok (bs, st') else .error (.panic "copy_to_slice")

/-- `get_u8` (via `copy_to_slice`, so it panics at end of data). -/
def getU8 {C : Type} (st : St C) : Except Err (Nat × St C) :=
  match copyToSlice 1 st with
  | .error e => .error e
  | .ok (bs, st') => .ok (bs.getD 0 0, st')

/-- `get_u16_le`: the `buf_get_impl` macro reads into a zero-initialised
buffer and never checks the count, so a short read zero-pads. -/
def getU16le {C : Type} (st : St C) : Nat × St C :=
  let (bs, st') := rawRead 2 st
  (u16leOf bs, st')

/-- `get_u32_le` (zero-padding on short read, as `get_u16_le`). -/
def getU32le {C : Type} (st : St C) : Nat × St C :=
  let (bs, st') := rawRead 4 st
  (u32leOf bs, st')

/-- `get_u64_le` (zero-padding on short read). -/
def getU64le {C : Type} (st : St C) : Nat × St C :=
  let (bs, st') := rawRead 8 st
  (u64leOf bs, st')

/-- `get_i32_le` as a signed value. -/
def getI32le {C : Type} (st : St C) : Int × St C :=
  let (n, st') := getU32le st
  (toI32 n, st')

/-- `advance(n)`, i.e. `seek(SeekFrom::Current(n))` for a forward count. -/
def advance {C : Type} (n : Nat) (st : St C) : St C := { st with pos := st.pos + n }

/-- `try_seek(SeekFrom::Current(d))`: fails with an IO error when the
target position would be negative. -/
def trySeekCur {C : Type} (d : Int) (st : St C) : Except Err (St C) :=
  if (st.pos : Int) + d < 0 then .error .io
  else .ok { st with pos := ((st.pos : Int) + d).toNat }

/-- `seek(SeekFrom::Start(n))` (never fails). -/
def seekStart {C : Type} (n : Nat) (st : St C) : St C := { st with pos := n }

/-- Apply the cipher transform (`MapleCipher::crypt`) to a buffer,
updating the cipher state carried by the accessor. -/
def cryptSt {C : Type} (cf : C → List Nat → List Nat × C) (bs : List Nat) (st : St C) :
    List Nat × St C :=
  ((cf st.cst bs).1, { st with cst := (cf st.cst bs).2 })

/-- `get_var_i32_le`: an `i8` prefix, with `-128` escaping to a full
little-endian `i32`. -/
def getVarI32le {C : Type} (st : St C) : Except Err (Int × St C) :=
  match getU8 st with
  | .error e => .error e
  | .ok (b, st') =>
    let v := toI8 b
    if v = -128 then .ok (getI32le st') else .ok (v, st')

/-- Result of the signed "absolute" variable-length codec. -/
inductive VarKind where
  | positive (n : Nat)
  | negative (n : Nat)
  deriving DecidableEq, Repr

/-- `get_var_u32_le_abs`: `i8` prefix `v`; `v = -128` or `v = 127`
escapes to a `u32`; the sign of `v` flags negativity. -/
def getVarU32leAbs {C : Type} (st : St C) : Except Err (VarKind × St C) :=
  match getU8 st with
  | .error e => .error e
  | .ok (b, st') =>
    let v := toI8 b
    let p := if v = -128 ∨ v = 127 then getU32le st' else (v.natAbs, st')
    if v < 0 then .ok (.negative p.1, p.2) else .ok (.positive p.1, p.2)

/-! ## String codec (`Accessor::decrypt_string_slice`) -/

/-- 16-bit little-endian words of a byte list (`chunks_exact(2)`; a
trailing odd byte is dropped). -/
def words16 : List Nat → List Nat
  | b0 :: b1 :: rest => u16le b0 b1 :: words16 rest
  | _ => []

/-- `char::decode_utf16` folded into a list of code points: returns
`none` exactly when an unpaired surrogate is hit. -/
def decodeUtf16 : List Nat → Option (List Nat)
  | [] => some []
  | w :: rest =>
    let w := w % U16
    if w < 0xD800 ∨ 0xE000 ≤ w then (decodeUtf16 rest).map (w :: ·)
    else if w < 0xDC00 then
      match rest with
      | [] => none
      | w2 :: rest2 =>
        let w2 := w2 % U16
        if 0xDC00 ≤ w2 ∧ w2 < 0xE000 then
          (decodeUtf16 rest2).map ((0x10000 + (w - 0xD800) * 1024 + (w2 - 0xDC00)) :: ·)
        else none
    else none

/-- The positional mask of the single-byte variant: byte `i` is XOR'd
with `(i + 0xAA) mod 256`. -/
def maskNarrow (bs : List Nat) : List Nat :=
  bs.mapIdx fun i b => b ^^^ ((i + 0xaa) % 256)

/-- The positional mask of the wide variant: 16-bit word `i` is XOR'd
with `(i + 0xAAAA) mod 2^16`, and the words are re-encoded LE. -/
def maskWide (bs : List Nat) : List Nat :=
  ((words16 bs).mapIdx fun i w => w ^^^ ((i + 0xaaaa) % U16)).flatMap
    fun w => [w % 256, w / 256 % 256]

/-- `Accessor::decrypt_string_slice`, with the Windows-1252 decoder of
`encoding_rs` abstracted as `w1252` (`none` = the decoder reported an
error).  Returns the decoded code points. -/
def decryptStringSlice {C : Type} (cf : C → List Nat → List Nat × C)
    (w1252 : List Nat → Option (List Nat)) (st : St C) :
    Except Err (List Nat × St C) :=
  match getVarU32leAbs st with
  | .error e => .error e
  | .ok (kind, st1) =>
    let size := match kind with
      | .negative n => n
      | .positive n => n * 2 % U32
    if size = 0 then .ok ([], st1)
    else
      match copyToSlice size st1 with
      | .error e => .error e
      | .ok (chunk, st2) =>
        match kind with
        | .negative _ =>
          let (dec, st3) := cryptSt cf (maskNarrow chunk) st2
          match w1252 dec with
          | none => .error .invalidCharacter
          | some cps => .ok (cps, st3)
        | .positive _ =>
          let (dec, st3) := cryptSt cf (maskWide chunk) st2
          match decodeUtf16 (words16 dec) with
          | none => .error .invalidCharacter
          | some cps => .ok (cps, st3)

/-- `get_decrypt_string`: unwraps `decrypt_string_slice`, panicking on
any error. -/
def getDecryptString {C : Type} (cf : C → List Nat → List Nat × C)
    (w1252 : List Nat → Option (List Nat)) (st : St C) : Except Err (List Nat × St C) :=
  match decryptStringSlice cf w1252 st with
  | .error _ => .error (.panic "get_decrypt_string")
  | .ok r => .ok r

/-! ## Offset obfuscator (`compute_offset`, `src/horntail/src/entry/directory.rs`) -/

/-- 32-bit rotate left (mask-and-or form; the rotation count is taken
mod 32). -/
def rotl32 (x k : Nat) : Nat :=
  (((x % U32) <<< (k % 32)) % U32) ||| ((x % U32) >>> ((32 - k % 32) % 32))

/-- `compute_offset` as a pure function of the context, the position at
which the obfuscated field sits, and the field's value. -/
def computeOffsetPure (parentOffset verHash pos enc : Nat) : Nat :=
  let d := (pos % U64 + U64 - parentOffset % U64) % U64 % U32
  let x := ((d ^^^ 4294967295) * (verHash % U32) % U32 + U32 - 0x581c3f6d) % U32
  let k := x &&& 0x1f
  let rot := ((x <<< (k % 32)) % U32) ||| (x >>> ((32 - k) % 32))
  ((rot ^^^ enc % U32) + ((parentOffset % U32) <<< 1) % U32) % U32

/-- `compute_offset` reading its `u32` field from the stream. -/
def computeOffsetSt {C : Type} (parentOffset verHash : Nat) (st : St C) : Nat × St C :=
  let p := st.pos
  let (enc, st') := getU32le st
  (computeOffsetPure parentOffset verHash p enc, st')

/-- The decoder exactly as the spec states it (C2): in 32-bit wrapping
arithmetic, `x = ((pos − parentOffset) ⊕ 0xFFFFFFFF) * versionHash −
0x581C3F6D`, `k = x AND 0x1F`, result
`rotateLeft(x, k) ⊕ enc + (parentOffset << 1)`. -/
def specComputeOffset (parentOffset verHash pos enc : Nat) : Nat :=
  let x := (((pos % U32 + U32 - parentOffset % U32) % U32 ^^^ 0xFFFFFFFF) * verHash % U32
    + U32 - 0x581C3F6D) % U32
  let k := x &&& 0x1F
  ((rotl32 x k ^^^ enc % U32) + (parentOffset % U32) * 2 % U32) % U32

/-- Modelled from the spec: the inverse transform of §4.5 used to encode
a real offset into the on-disk field (the encoder does not appear in the
sources). -/
def encodeOffsetField (parentOffset verHash pos realOffset : Nat) : Nat :=
  let x := (((pos % U32 + U32 - parentOffset % U32) % U32 ^^^ 0xFFFFFFFF) * verHash % U32
    + U32 - 0x581C3F6D) % U32
  let k := x &&& 0x1F
  rotl32 x k ^^^ ((realOffset % U32 + U32 - (parentOffset % U32) * 2 % U32) % U32)

/-! ## Version hash (`src/horntail/src/crypto/version.rs`) -/

/-- Decimal digit values, most significant first, with explicit fuel
(`fuel ≥ n` always suffices since `n / 10 < n` for `n ≥ 10`). -/
def decDigitsAux (fuel n : Nat) : List Nat :=
  match fuel with
  | 0 => []
  | f + 1 => if n < 10 then [n] else decDigitsAux f (n / 10) ++ [n % 10]

/-- Decimal digit values of `n`, most significant first (`0` renders as
the single digit `0`, like `to_string`). -/
def decDigits (n : Nat) : List Nat := decDigitsAux (n + 1) n

/-- The ASCII bytes of the decimal rendering of a `u16`
(`self.0.to_string().into_bytes()`). -/
def decBytes (v : Nat) : List Nat := (decDigits (v % U16)).map (· + 48)

/-- `MapleVersion::hash`: fold `h ← (h << 5) + (b + 1)` over the ASCII
bytes `b` of the decimal rendering, in `u16` arithmetic. -/
def mapleHash (v : Nat) : Nat :=
  (decBytes v).foldl (fun h b => ((h <<< 5) % U16 + (b + 1) % 256) % U16) 0

/-- The hash exactly as claim C4 words it: fold `h ← (h << 5) + (d + 1)`
over the decimal digit values `d` of the version. -/
def specDigitHash (v : Nat) : Nat :=
  (decDigits (v % U16)).foldl (fun h d => ((h <<< 5) % U16 + (d + 1)) % U16) 0

/-- The hash as amended claim C4 words it: fold `h ← (h << 5) + (b + 1)`
over the ASCII bytes `b` of the decimal rendering, in 16-bit
arithmetic. -/
def specAsciiHash (v : Nat) : Nat :=
  (decBytes v).foldl (fun h b => ((h <<< 5) % U16 + (b + 1)) % U16) 0

/-- `u16::checked_shr` with fallback 0 (`checked_shr(i).unwrap_or(0)`). -/
def checkedShr16 (h i : Nat) : Nat := if i < 16 then (h >>> i) % U16 else 0

/-- `MapleVersion::hash_enc`: XOR-fold the byte limbs of the hash into
an initial `0xFF` (shift counts `0, 8, 16, 24`; the latter two fall back
to 0). -/
def hashEnc (v : Nat) : Nat :=
  (List.range 4).foldl (fun enc i => enc ^^^ (checkedShr16 (mapleHash v) (i <<< 3) &&& 0xff)) 0xff

/-! ## WZ container open (`WizetFile::new`, `src/horntail/src/reader/wizet.rs`) -/

/-- Is a continuation byte (`0x80..0xBF`)? -/
def contByte (b : Nat) : Bool := 0x80 ≤ b && b < 0xC0

/-- `String::from_utf8` validity (std UTF-8 validation: rejects overlong
forms, surrogates, and values above U+10FFFF). -/
def validUtf8 : List Nat → Bool
  | [] => true
  | b :: rest =>
    if b < 0x80 then validUtf8 rest
    else if b < 0xC2 then false
    else if b < 0xE0 then
      match rest with
      | c1 :: r => contByte c1 && validUtf8 r
      | _ => false
    else if b < 0xF0 then
      match rest with
      | c1 :: c2 :: r =>
        let lo := if b = 0xE0 then 0xA0 else 0x80
        let hi := if b = 0xED then 0xA0 else 0xC0
        (decide (lo ≤ c1) && decide (c1 < hi)) && contByte c2 && validUtf8 r
      | _ => false
    else if b < 0xF5 then
      match rest with
      | c1 :: c2 :: c3 :: r =>
        let lo := if b = 0xF0 then 0x90 else 0x80
        let hi := if b = 0xF4 then 0x90 else 0xC0
        (decide (lo ≤ c1) && decide (c1 < hi)) && contByte c2 && contByte c3 && validUtf8 r
      | _ => false
    else false

/-- The WZ signature `0x31474B50` ("PKG1"). -/
def wizetSignature : Nat := 0x31474B50

/-- The tail of `WizetFile::new` past the header fields: the copyright
read (`vec![0; header_size - pos - 1]` then `from_utf8(...).unwrap()`,
which panics on invalid UTF-8), then — unless `noVersion` — the seek to
`headerSize` and the version-hash comparison. -/
def wizetTail (ver : Nat) (noVersion : Bool) (headerSize : Nat) (st : St Unit) :
    Except Err Nat :=
  match copyToSlice ((headerSize % U64 + U64 - st.pos - 1) % U64) st with
  | .error e => .error e
  | .ok (copyrightRaw, st4) =>
    if ¬ validUtf8 copyrightRaw then .error (.panic "from_utf8")
    else if noVersion then .ok headerSize
    else if hashEnc ver ≠ (getU16le (seekStart headerSize st4)).1 then .error .invalidVersion
    else .ok headerSize

/-- `WizetFile::new` over the mapped bytes: signature check, header-size
invariant, then `wizetTail`.  Returns `data_pos` (= `headerSize`) on
success. -/
def wizetNew (data : List Nat) (ver : Nat) (noVersion : Bool) : Except Err Nat :=
  let p1 := getU32le (stOf () data)
  if p1.1 ≠ wizetSignature then .error .brokenFile
  else
    let p2 := getU64le p1.2
    let p3 := getU32le p2.2
    if (data.length % U64 + U64 - p2.1) % U64 ≠ p3.1 then .error .brokenFile
    else wizetTail ver noVersion p3.1 p3.2

/-- The `u16` field read at `headerSize` (what the version check
compares against). -/
def u16At (data : List Nat) (headerSize : Nat) : Nat :=
  (getU16le (seekStart headerSize (stOf () data))).1

/-- A 20-byte WZ image whose signature and header-size checks pass
(`dataSize = 2`, `headerSize = 18`) but whose 1-byte copyright block is
the invalid UTF-8 byte `0xFF`; the `u16` at 18 is `0x3412`. -/
def wzBadCopyright : List Nat :=
  [0x50, 0x4B, 0x47, 0x31, 2, 0, 0, 0, 0, 0, 0, 0, 18, 0, 0, 0, 0xFF, 0x00, 0x12, 0x34]

/-- A 19-byte WZ image whose checks pass (`dataSize = 2`,
`headerSize = 17`, empty copyright) and whose `u16` at 17 equals
`hash_enc(1) = 205`. -/
def wzOkHeader : List Nat :=
  [0x50, 0x4B, 0x47, 0x31, 2, 0, 0, 0, 0, 0, 0, 0, 17, 0, 0, 0, 0x00, 0xCD, 0x00]

/-! ## Pack header validation (`PackFile::new`, `src/horntail/src/reader/pack.rs`) -/

/-- Normalise an `Int` into the `i32` range (two's complement wrap). -/
def wrap32I (i : Int) : Int := (i + 2147483648) % (U32 : Int) - 2147483648

/-- The `u16` values of `salt.chunks(2)` (the sources index `salt[1]`
in each chunk, so the salt length is even in every call). -/
def saltPairs : List Nat → List Nat
  | s0 :: s1 :: rest => u16le s0 s1 :: saltPairs rest
  | _ => []

/-- The validation performed by `PackFile::new` on the SNOW2-decrypted
12-byte header `temp` (`i32 hash`, `u8 version`, `i32 entryCount`):
`version != 2` fails `InvalidVersion`; then the wrapping `i32` sum
`hashSaltLen + version + entryCount + Σ u16LE(salt pairs)` must equal
`hash` or the open fails `BrokenFile`.  Returns `entryCount`. -/
def packValidate (hashSaltLen : Int) (salt : List Nat) (temp : List Nat) : Except Err Int :=
  let st : St Unit := stOf () temp
  let (h, st) := getU32le st
  match getU8 st with
  | .error e => .error e
  | .ok (verB, st) =>
    let (ec, _) := getU32le st
    let hash := toI32 h
    let entryCount := toI32 ec
    if verB ≠ 2 then .error .invalidVersion
    else if (saltPairs salt).foldl (fun acc (p : Nat) => wrap32I (acc + (p : Int)))
        (wrap32I (wrap32I (hashSaltLen + (verB : Int)) + entryCount)) ≠ hash
      then .error .brokenFile
    else .ok entryCount

/-! ## Keystream table (`MapleTable`, `src/horntail/src/crypto/table.rs`)

AES-256-ECB block encryption under the fixed key is the abstract
length-preserving map `enc` on 16-byte blocks. -/

/-- Block `i` of the keystream: block 0 encrypts the IV repeated four
times; every later block encrypts its predecessor. -/
def ksBlock (enc : List Nat → List Nat) (iv4 : List Nat) : Nat → List Nat
  | 0 => enc (iv4 ++ iv4 ++ iv4 ++ iv4)
  | n + 1 => enc (ksBlock enc iv4 n)

/-- The first `m` blocks of the keystream, concatenated. -/
def tableStream (enc : List Nat → List Nat) (iv4 : List Nat) (m : Nat) : List Nat :=
  (List.range m).flatMap (ksBlock enc iv4)

/-- `MapleTable::new`: the materialised table starts as the encryption
of the IV repeated four times. -/
def mapleTableNew (enc : List Nat → List Nat) (iv4 : List Nat) : List Nat :=
  enc (iv4 ++ iv4 ++ iv4 ++ iv4)

/-- Append `k` blocks, each the encryption of the current last 16 bytes
(the `extend_table` loop body). -/
def appendBlocks (enc : List Nat → List Nat) (tab : List Nat) : Nat → List Nat
  | 0 => tab
  | k + 1 => appendBlocks enc (tab ++ enc (tab.drop (tab.length - 16))) k

/-- `MapleTable::extend_table`: round the missing byte count up to a
multiple of 16 and append at least that many blocks.  `slack` is the
allocator headroom: the loop runs to `capacity`, which may exceed the
request, so the embedded count carries an arbitrary surplus. -/
def extendTable (enc : List Nat → List Nat) (slack : Nat) (tab : List Nat) (size : Nat) :
    List Nat :=
  let reserve := size - tab.length
  if reserve = 0 then tab
  else appendBlocks enc tab ((reserve + 15) / 16 + slack)

/-- `MapleTable::crypt`: materialise at least `dst.len()` keystream
bytes, then XOR `dst` with the table prefix.  Returns the rewritten
buffer and the new table. -/
def tableCrypt (enc : List Nat → List Nat) (slack : Nat) (tab dst : List Nat) :
    List Nat × List Nat :=
  let tab' := if tab.length < dst.length then extendTable enc slack tab dst.length else tab
  (dst.zipWith (fun d t => d ^^^ t) (tab'.take dst.length), tab')

/-- The well-formedness invariant of a materialised table: it is the
prefix of the IV-determined keystream consisting of some positive number
of whole blocks. -/
def wfTable (enc : List Nat → List Nat) (iv4 : List Nat) (tab : List Nat) : Prop :=
  ∃ m, 0 < m ∧ tab = tableStream enc iv4 m

/-! ## Directory walker (`src/horntail/src/entry/directory.rs`) -/

/-- What a directory listing records per entry: the decrypted name, the
entry kind tag (the `EntryKind`; `3` stands for `Folder`, image entries
carry the tag resolved by the image dispatcher), and the offsets. -/
structure DirEntry where
  name : List Nat
  kindTag : Nat
  offset : Nat
  parentOffset : Nat
  deriving DecidableEq, Repr

/-- `seek_back(style, f)`: save the cursor, seek, run `f`, restore.  A
panic inside `f` aborts without restoring; an error value carries no
state, so restore-on-error needs no separate case. -/
def seekBack {C α : Type} (off : Nat) (f : St C → Except Err (α × St C)) (st : St C) :
    Except Err (α × St C) :=
  let anchor := st.pos
  match f (seekStart off st) with
  | .error e => .error e
  | .ok (a, st') => .ok (a, seekStart anchor st')

/-- The closure run inside `seek_back` for an alias entry: read the
target's `(u8 realKind, string name)`. -/
def dirAliasTarget {C : Type} (cf : C → List Nat → List Nat × C)
    (w1252 : List Nat → Option (List Nat)) (st : St C) :
    Except Err ((Nat × List Nat) × St C) :=
  match getU8 st with
  | .error e => .error e
  | .ok (realKind, st) =>
    match getDecryptString cf w1252 st with
    | .error e => .error e
    | .ok (nm, st) => .ok ((realKind, nm), st)

/-- The part of `Option<Directory>::try_from_accessor` past the
`(kind, name)` resolution: `varI32 size`, `varI32 checksum` (discarded),
the obfuscated offset, then the match on the resolved kind (`4` descends
into the image at `data_offset`, `3` yields a folder entry, anything
else fails `UnexpectedData`). -/
def dirFinish {C : Type} (imageParse : Nat → St C → Except Err ((Nat × Nat) × St C))
    (parentOffset verHash : Nat) (kind : Nat) (name : List Nat) (st : St C) :
    Except Err (Option DirEntry × St C) :=
  match getVarI32le st with
  | .error e => .error e
  | .ok (_size, st) =>
    match getVarI32le st with
    | .error e => .error e
    | .ok (_checksum, st) =>
      let q := computeOffsetSt parentOffset verHash st
      if kind = 4 then
        match seekBack q.1 (imageParse q.1) q.2 with
        | .error e => .error e
        | .ok (img, st) => .ok (some ⟨name, img.1, img.2, q.1⟩, st)
      else if kind = 3 then
        .ok (some ⟨name, 3, q.1, parentOffset⟩, q.2)
      else
        .error (.unexpectedData "unexpected element kind")

/-- `Option<Directory>::try_from_accessor`: dispatch on the leading kind
byte (1 = Unknown, 2 = alias, 3 = Folder, 4 = Image), resolve the name
(through `seek_back` for an alias), then `dirFinish`.  `imageParse`
abstracts `Image::try_from_accessor` (it receives the entry's
`data_offset` as its parent offset and yields the image's kind tag and
offset). -/
def dirTryFromAccessor {C : Type} (cf : C → List Nat → List Nat × C)
    (w1252 : List Nat → Option (List Nat))
    (imageParse : Nat → St C → Except Err ((Nat × Nat) × St C))
    (parentOffset verHash : Nat) (st : St C) : Except Err (Option DirEntry × St C) :=
  match getU8 st with
  | .error e => .error e
  | .ok (kind, st) =>
    if kind = 1 then .ok (none, advance 10 st)
    else
      let resolved : Except Err ((Nat × List Nat) × St C) :=
        if kind = 2 then
          let p := getU32le st
          seekBack ((p.1 + parentOffset) % U64) (dirAliasTarget cf w1252) p.2
        else if kind = 4 ∨ kind = 3 then
          match getDecryptString cf w1252 st with
          | .error e => .error e
          | .ok (nm, st) => .ok ((kind, nm), st)
        else .error (.panic "invalid element kind")
      match resolved with
      | .error e => .error e
      | .ok (resolvedKN, st) =>
        dirFinish imageParse parentOffset verHash resolvedKN.1 resolvedKN.2 st

/-! ## Canvas decoding (`src/horntail/src/entry/canvas/canvas.rs`) -/

/-- The format tags `CanvasFormat::from` recognises (everything else is
`Unknown` and rejected by `CanvasAttribute::try_from_accessor`). -/
def canvasFormats : List Int :=
  [1, 2, 3, 257, 513, 517, 1026, 2050, 2304, 2562, 4097, 4098, 4100]

/-- `CanvasFormat::data_size(width, height)` — the byte count of the
decoded pixel data, by format tag (`i32` arithmetic, `/` truncating
toward zero). -/
def formatDataSize (value w h : Int) : Int :=
  if value = 1 ∨ value = 257 ∨ value = 513 then wrap32I (wrap32I (w * h) * 2)
  else if value = 2 ∨ value = 2562 then wrap32I (wrap32I (w * h) * 4)
  else if value = 1026 ∨ value = 2050 ∨ value = 3 ∨ value = 4098 then
    wrap32I (wrap32I (Int.tdiv (wrap32I (w + 3)) 4 * Int.tdiv (wrap32I (h + 3)) 4) * 16)
  else if value = 4097 then
    wrap32I (wrap32I (Int.tdiv (wrap32I (w + 3)) 4 * Int.tdiv (wrap32I (h + 3)) 4) * 8)
  else if value = 2304 then wrap32I (w * h)
  else if value = 4100 then wrap32I (wrap32I (w * h) * 16)
  else if value = 517 then Int.tdiv (wrap32I (w * h)) 128
  else 0

/-- The tail of `CanvasAttribute::try_from_accessor` past the properties
and size vector: `format = varI32 + u8 as i32` (unknown tags fail
`UnexpectedData`), skip 4 unknown bytes, `data_size = i32LE − 1` cast to
`usize`, skip 1 byte. -/
def canvasAttrTail {C : Type} (st : St C) : Except Err ((Int × Nat) × St C) :=
  match getVarI32le st with
  | .error e => .error e
  | .ok (v, st) =>
    match getU8 st with
    | .error e => .error e
    | .ok (b, st) =>
      let fmt := wrap32I (v + b)
      if fmt ∉ canvasFormats then .error (.unexpectedData "canvas format")
      else
        let p := getI32le (advance 4 st)
        .ok ((fmt, ofI64 (wrap32I (p.1 - 1))), advance 1 p.2)

/-- The same tail as claim C7 words it: `compressedSize = varI32 − 1`
instead of the fixed-width `i32` field. -/
def specCanvasAttrTailVar {C : Type} (st : St C) : Except Err ((Int × Nat) × St C) :=
  match getVarI32le st with
  | .error e => .error e
  | .ok (v, st) =>
    match getU8 st with
    | .error e => .error e
    | .ok (b, st) =>
      let fmt := wrap32I (v + b)
      if fmt ∉ canvasFormats then .error (.unexpectedData "canvas format")
      else
        match getVarI32le (advance 4 st) with
        | .error e => .error e
        | .ok (ds, st) => .ok ((fmt, ofI64 (wrap32I (ds - 1))), advance 1 st)

/-- The `while accessor.has_remaining()` loop of the chunked canvas
branch: read an `i32` chunk length, read that many bytes, apply the
cipher transform, and append.  A cursor beyond the end makes the Rust
loop spin forever (the wrapped `remaining()` stays positive while reads
return nothing), modelled as `Err.diverge`. -/
def canvasChunkLoop {C : Type} (cf : C → List Nat → List Nat × C) (st : St C)
    (acc : List Nat) : Except Err (List Nat × St C) :=
  if st.data.length = 0 then .ok (acc, st)
  else if st.pos = st.data.length then .ok (acc, st)
  else if h3 : st.data.length < st.pos then .error .diverge
  else
    match hcs : copyToSlice (ofI64 (getI32le st).1) (getI32le st).2 with
    | .error e => .error e
    | .ok p =>
      canvasChunkLoop cf (cryptSt cf p.1 p.2).2 (acc ++ (cryptSt cf p.1 p.2).1)
termination_by st.data.length - st.pos
decreasing_by
  simp only [copyToSlice, rawRead] at hcs
  split at hcs
  · simp only [Except.ok.injEq] at hcs
    subst hcs
    simp only [cryptSt, getI32le, getU32le, rawRead, List.length_take, List.length_drop]
    omega
  · exact Except.noConfusion hcs

/-- The payload read of `Canvas::try_from_accessor`: peek a `u16LE`
(read then seek back 2); `0x9C78` takes the contiguous-blob branch of
`compressedSize` bytes, anything else the chunked branch. -/
def canvasPayload {C : Type} (cf : C → List Nat → List Nat × C) (dataSize : Nat)
    (st : St C) : Except Err (List Nat × St C) :=
  let p := getU16le st
  match trySeekCur (-2) p.2 with
  | .error e => .error e
  | .ok st =>
    if p.1 ≠ 0x9C78 then canvasChunkLoop cf st []
    else copyToSlice dataSize st

/-- The `i32 chunkLen` at the head of a chunk record, as a `usize`
(read zero-padded at the very end of data, like the accessor's
fixed-width reads). -/
def chunkSize (l : List Nat) : Nat := ofI64 (toI32 (u32leOf (l.take 4)))

/-- The chunked payload as the claim words it, as a pure stream
function: the remaining bytes are a sequence of `(i32 chunkLen, chunk
bytes)` records; each chunk is passed through the cipher transform and
the results are concatenated. -/
def specChunkSeq {C : Type} (cf : C → List Nat → List Nat × C) (c : C) :
    List Nat → Except Err (List Nat × C)
  | [] => .ok ([], c)
  | b :: bs =>
    if chunkSize (b :: bs) ≤ ((b :: bs).drop 4).length then
      match specChunkSeq cf (cf c (((b :: bs).drop 4).take (chunkSize (b :: bs)))).2
          (((b :: bs).drop 4).drop (chunkSize (b :: bs))) with
      | .error e => .error e
      | .ok p =>
        .ok ((cf c (((b :: bs).drop 4).take (chunkSize (b :: bs)))).1 ++ p.1, p.2)
    else .error (.panic "copy_to_slice")
termination_by l => l.length
decreasing_by
  simp only [List.length_drop, List.length_cons]
  omega

/-- `Canvas::try_from_accessor` past the properties and size vector:
attribute tail, payload, then inflate (`inflate` abstracts the zlib
decoder; `none` is a decoder error, surfaced as `Error::IO`).  The
decoded size must reach `format.data_size(w, h)` exactly, else
`BrokenFile`. -/
def canvasDecode {C : Type} (cf : C → List Nat → List Nat × C)
    (inflate : List Nat → Option (List Nat)) (w h : Int) (st : St C) :
    Except Err (List Nat × St C) :=
  match canvasAttrTail st with
  | .error e => .error e
  | .ok (fmtDs, st) =>
    match canvasPayload cf fmtDs.2 st with
    | .error e => .error e
    | .ok (data, st) =>
      let rawSize := ofI64 (formatDataSize fmtDs.1 w h)
      match inflate data with
      | none => .error .io
      | some out =>
        if min out.length rawSize ≠ rawSize then .error .brokenFile
        else .ok (out.take rawSize, st)

/-! # Theorems -/

/-- Tap positions are insensitive to reducing the round index mod 16. -/
theorem mod16_add (i k : Nat) : (i % 16 + k) % 16 = (i + k) % 16 := by omega

/-- C1: one SNOW 2.0 keystream step updates
`s[cur] ← α(s[cur]) ⊕ s[(cur+2)%16] ⊕ α⁻¹(s[(cur+11)%16])`, computes
`fsm = r2 + s[(cur+5)%16]` (wrapping), sets `r2 ← sbox r1`, `r1 ← fsm`,
advances `cur ← (cur+1)%16`, and outputs `(r1 + s[prev_cur]) ⊕ r2 ⊕ s[cur]`
with the updated registers; a key-schedule round is the same update with
`(r1 + s[(cur+15)%16]) ⊕ r2` additionally XOR'd into the LFSR-update
result (at `cur = index % 16`) and the output word discarded. -/
theorem c1_snow2_step_matches_spec :
    ∀ (aMul ainvMul sbox : Nat → Nat) (st : Snow2St) (state : Nat → Nat) (r1 r2 index : Nat),
      snow2Next aMul ainvMul sbox st = specKeystreamStep aMul ainvMul sbox st ∧
      roundState aMul ainvMul sbox state r1 r2 index =
        specKeyScheduleRound aMul ainvMul sbox state r1 r2 (index % 16) := by
  intro aMul ainvMul sbox st state r1 r2 index
  refine ⟨rfl, ?_⟩
  simp only [roundState, specKeyScheduleRound, mod16_add, Nat.mod_mod_of_dvd]

/-- C8 (counterexample): on the 3-byte buffer `[0,0,0]` the SNOW 2.0
`crypt` panics ("invalid destination length"); it does not return the
structured `InvalidArgument` error the claim names (`crypt`'s return
type has no error channel at all). -/
theorem c8_crypt_counterexample :
    snow2Crypt (fun n => n) (fun n => n) (fun n => n) [0, 0, 0] true ⟨fun _ => 0, 0, 0, 0⟩
        = .error (.panic "invalid destination length") ∧
      Err.panic "invalid destination length" ≠ Err.invalidArgument :=
  ⟨rfl, by decide⟩

/-- The word loop of `crypt` applies `cryptWord` to the little-endian
words with the successive keystream words. -/
theorem snow2CryptWords_eq (aM aI sb : Nat → Nat) (isEnc : Bool) :
    ∀ (cs : List (List Nat)) (st : Snow2St),
      snow2CryptWords aM aI sb isEnc cs st =
        (((cs.map u32leOf).zipWith (cryptWord isEnc)
            (snow2Keystream aM aI sb cs.length st).1).map leBytes32,
          (snow2Keystream aM aI sb cs.length st).2) := by
  intro cs
  induction cs with
  | nil => intro st; rfl
  | cons c rest ih =>
    intro st
    simp only [snow2CryptWords, snow2Keystream, List.length_cons, List.map_cons,
      List.zipWith_cons_cons, ih]

/-- `chunks4` produces `⌊len/4⌋` chunks. -/
theorem chunks4_length : ∀ l : List Nat, (chunks4 l).length = l.length / 4 := by
  intro l
  induction l using chunks4.induct with
  | case1 b0 b1 b2 b3 rest ih => simp only [chunks4, List.length_cons, ih]; omega
  | case2 l h =>
    match l, h with
    | [], _ => simp [chunks4]
    | [a], _ => simp [chunks4]
    | [a, b], _ => simp [chunks4]
    | [a, b, c], _ => simp [chunks4]
    | a :: b :: c :: d :: rest, h => exact (h a b c d rest rfl).elim

/-- C8 (amended): `Snow2::crypt` panics (rather than returning
`InvalidArgument`) when the buffer length is not a multiple of 4;
otherwise each 4-byte little-endian word `w` is replaced by
`(w + k) mod 2^32` on encrypt and `(w − k) mod 2^32` on decrypt, with
`k` the successive keystream words. -/
theorem c8_crypt_characterization :
    ∀ (aM aI sb : Nat → Nat) (dst : List Nat) (isEnc : Bool) (st : Snow2St),
      (dst.length % 4 ≠ 0 →
        snow2Crypt aM aI sb dst isEnc st = .error (.panic "invalid destination length")) ∧
      (dst.length % 4 = 0 →
        snow2Crypt aM aI sb dst isEnc st =
          .ok (((((chunks4 dst).map u32leOf).zipWith (cryptWord isEnc)
              (snow2Keystream aM aI sb (dst.length / 4) st).1).map leBytes32).flatten,
            (snow2Keystream aM aI sb (dst.length / 4) st).2)) := by
  intro aM aI sb dst isEnc st
  constructor
  · intro h
    simp only [snow2Crypt, if_pos h]
  · intro h
    rw [snow2Crypt, if_neg (show ¬dst.length % 4 ≠ 0 by omega)]
    simp only [snow2CryptWords_eq, chunks4_length]

/-- Witness for C8: a concrete 4-byte buffer takes the word branch. -/
theorem c8_crypt_witness :
    (([1, 2, 3, 4] : List Nat).length % 4 = 0) ∧
      snow2Crypt (fun n => n) (fun n => n) (fun n => n) [1, 2, 3, 4] true ⟨fun _ => 0, 0, 0, 0⟩ =
        .ok (((((chunks4 [1, 2, 3, 4]).map u32leOf).zipWith (cryptWord true)
            (snow2Keystream (fun n => n) (fun n => n) (fun n => n)
              (([1, 2, 3, 4] : List Nat).length / 4) ⟨fun _ => 0, 0, 0, 0⟩).1).map leBytes32).flatten,
          (snow2Keystream (fun n => n) (fun n => n) (fun n => n)
            (([1, 2, 3, 4] : List Nat).length / 4) ⟨fun _ => 0, 0, 0, 0⟩).2) :=
  ⟨by decide,
    (c8_crypt_characterization (fun n => n) (fun n => n) (fun n => n) [1, 2, 3, 4] true
      ⟨fun _ => 0, 0, 0, 0⟩).2 (by decide)⟩

/-- C2: the offset decoder equals the spec's formula — in 32-bit
wrapping arithmetic, `x = ((pos − parentOffset) ⊕ 0xFFFFFFFF) *
versionHash − 0x581C3F6D`, `k = x AND 0x1F`, result `rotateLeft(x,k) ⊕
enc + (parentOffset << 1)` — with `enc` the little-endian `u32` read at
`pos`; and encoding a real offset with the inverse transform and
decoding recovers it. -/
theorem c2_offset_decode_roundtrip :
    ∀ (parentOffset verHash pos enc real : Nat),
      computeOffsetPure parentOffset verHash pos enc
          = specComputeOffset parentOffset verHash pos enc ∧
      (∀ (C : Type) (st : St C),
        computeOffsetSt parentOffset verHash st
          = (computeOffsetPure parentOffset verHash st.pos (getU32le st).1, (getU32le st).2)) ∧
      (real < U32 →
        computeOffsetPure parentOffset verHash pos
            (encodeOffsetField parentOffset verHash pos real) = real) := by
  intro po vh pos enc real
  have hU : U32 = 2 ^ 32 := by norm_num [U32]
  have hd : (pos % U64 + U64 - po % U64) % U64 % U32 = (pos % U32 + U32 - po % U32) % U32 := by
    simp only [U64, U32]; omega
  have hmul : ∀ a : Nat, a * (vh % U32) % U32 = a * vh % U32 := by
    intro a
    conv_lhs => rw [Nat.mul_mod, Nat.mod_mod_of_dvd _ dvd_rfl, ← Nat.mul_mod]
  have hrot : ∀ x : Nat, x < U32 →
      ((x <<< ((x &&& 0x1f) % 32)) % U32) ||| (x >>> ((32 - (x &&& 0x1f)) % 32))
        = rotl32 x (x &&& 0x1f) := by
    intro x hx
    have hk : x &&& 0x1f ≤ 31 := le_trans Nat.and_le_right (by norm_num)
    rw [rotl32, Nat.mod_eq_of_lt hx, Nat.mod_eq_of_lt (show x &&& 0x1f < 32 by omega)]
  refine ⟨?_, fun C st => rfl, ?_⟩
  · rw [computeOffsetPure, specComputeOffset]
    rw [hd, hmul]
    rw [hrot _ (Nat.mod_lt _ (by norm_num [U32]))]
    rw [Nat.shiftLeft_eq]
  · intro hreal
    rw [computeOffsetPure, encodeOffsetField]
    rw [hd, hmul]
    rw [hrot _ (Nat.mod_lt _ (by norm_num [U32]))]
    set x := (((pos % U32 + U32 - po % U32) % U32 ^^^ 0xFFFFFFFF) * vh % U32
      + U32 - 0x581C3F6D) % U32 with hxdef
    set k := x &&& 0x1F with hkdef
    set y := (real % U32 + U32 - (po % U32) * 2 % U32) % U32 with hydef
    have hyLt : y < U32 := Nat.mod_lt _ (by norm_num [U32])
    have hrotlt : rotl32 x k < U32 := by
      rw [rotl32, hU]
      refine Nat.or_lt_two_pow (Nat.mod_lt _ (by norm_num)) ?_
      calc (x % 2 ^ 32) >>> ((32 - k % 32) % 32) ≤ x % 2 ^ 32 := by
            rw [Nat.shiftRight_eq_div_pow]; exact Nat.div_le_self _ _
        _ < 2 ^ 32 := Nat.mod_lt _ (by norm_num)
    have hencLt : rotl32 x k ^^^ y < U32 := by
      rw [hU] at hrotlt hyLt ⊢
      exact Nat.xor_lt_two_pow hrotlt hyLt
    rw [Nat.mod_eq_of_lt hencLt]
    rw [← Nat.xor_assoc, Nat.xor_self, Nat.zero_xor]
    rw [Nat.shiftLeft_eq]
    rw [hydef]
    simp only [U32, pow_one] at hreal ⊢
    omega

/-- Witness for C2: the spec's seed vector `parentOffset = 0x10`,
`versionHash = 0x1234`, `pos = 0x30`, real offset `0x40` round-trips. -/
theorem c2_offset_roundtrip_witness :
    (0x40 < U32) ∧
      computeOffsetPure 0x10 0x1234 0x30 (encodeOffsetField 0x10 0x1234 0x30 0x40) = 0x40 :=
  ⟨by decide, (c2_offset_decode_roundtrip 0x10 0x1234 0x30 0 0x40).2.2 (by decide)⟩

/-! Read-primitive lemmas, shared by the stream-level theorems. -/

theorem take_one_drop (l : List Nat) (p : Nat) (h : p < l.length) :
    (l.drop p).take 1 = [l.getD p 0] := by
  induction l generalizing p with
  | nil => simp at h
  | cons a as ih =>
    cases p with
    | zero => simp
    | succ q =>
      simp only [List.drop_succ_cons, List.getD_cons_succ]
      exact ih q (by simpa using h)

theorem copyToSlice_ok {C : Type} (n : Nat) (st : St C) (h : st.pos + n ≤ st.data.length) :
    copyToSlice n st = .ok ((st.data.drop st.pos).take n, { st with pos := st.pos + n }) := by
  simp only [copyToSlice, rawRead, min_eq_left (show st.pos ≤ st.data.length by omega)]
  rw [if_pos (by simp only [List.length_take, List.length_drop]; omega)]
  have hl : ((st.data.drop st.pos).take n).length = n := by
    simp only [List.length_take, List.length_drop]; omega
  rw [hl]

theorem getU8_ok {C : Type} (st : St C) (h : st.pos < st.data.length) :
    getU8 st = .ok (st.data.getD st.pos 0, { st with pos := st.pos + 1 }) := by
  simp only [getU8, copyToSlice_ok 1 st (by omega), take_one_drop st.data st.pos h]
  rfl

theorem getU16le_ok {C : Type} (st : St C) (h : st.pos + 2 ≤ st.data.length) :
    getU16le st = (u16leOf ((st.data.drop st.pos).take 2), { st with pos := st.pos + 2 }) := by
  simp only [getU16le, rawRead, min_eq_left (show st.pos ≤ st.data.length by omega)]
  have hl : ((st.data.drop st.pos).take 2).length = 2 := by
    simp only [List.length_take, List.length_drop]; omega
  rw [hl]

theorem getU32le_ok {C : Type} (st : St C) (h : st.pos + 4 ≤ st.data.length) :
    getU32le st = (u32leOf ((st.data.drop st.pos).take 4), { st with pos := st.pos + 4 }) := by
  simp only [getU32le, rawRead, min_eq_left (show st.pos ≤ st.data.length by omega)]
  have hl : ((st.data.drop st.pos).take 4).length = 4 := by
    simp only [List.length_take, List.length_drop]; omega
  rw [hl]

theorem getI32le_ok {C : Type} (st : St C) (h : st.pos + 4 ≤ st.data.length) :
    getI32le st
      = (toI32 (u32leOf ((st.data.drop st.pos).take 4)), { st with pos := st.pos + 4 }) := by
  simp only [getI32le, getU32le_ok st h]

theorem getU64le_ok {C : Type} (st : St C) (h : st.pos + 8 ≤ st.data.length) :
    getU64le st = (u64leOf ((st.data.drop st.pos).take 8), { st with pos := st.pos + 8 }) := by
  simp only [getU64le, rawRead, min_eq_left (show st.pos ≤ st.data.length by omega)]
  have hl : ((st.data.drop st.pos).take 8).length = 8 := by
    simp only [List.length_take, List.length_drop]; omega
  rw [hl]

/-! Wrapping-sum lemmas for the pack-header hash. -/

theorem wrap32I_add_left (a b : Int) : wrap32I (wrap32I a + b) = wrap32I (a + b) := by
  simp only [wrap32I, U32]; omega

theorem foldl_wrap32I_sum :
    ∀ (ps : List Nat) (a : Int),
      ps.foldl (fun acc (p : Nat) => wrap32I (acc + (p : Int))) (wrap32I a)
        = wrap32I (a + (ps.sum : Int)) := by
  intro ps
  induction ps with
  | nil => intro a; simp
  | cons p rest ih =>
    intro a
    simp only [List.foldl_cons, List.sum_cons, wrap32I_add_left, ih]
    congr 1
    push_cast
    ring

/-- C5: given the SNOW2-decrypted 12-byte pack header
`(i32 hash, u8 version, i32 entryCount)` and the salt bytes: if the
version byte differs from 2 the open fails `InvalidVersion`; otherwise
if the wrapping `i32` sum `hashSaltLen + version + entryCount +
Σ u16LE(salt pairs)` differs from `hash` it fails `BrokenFile`; if both
checks pass it proceeds, returning `entryCount`. -/
theorem c5_pack_header_validation :
    ∀ (hashSaltLen : Int) (salt temp : List Nat),
      temp.length = 12 →
      (temp.getD 4 0 ≠ 2 → packValidate hashSaltLen salt temp = .error .invalidVersion) ∧
      (temp.getD 4 0 = 2 →
        (wrap32I (hashSaltLen + 2 + toI32 (u32leOf ((temp.drop 5).take 4))
              + ((saltPairs salt).sum : Int)) ≠ toI32 (u32leOf (temp.take 4)) →
          packValidate hashSaltLen salt temp = .error .brokenFile) ∧
        (wrap32I (hashSaltLen + 2 + toI32 (u32leOf ((temp.drop 5).take 4))
              + ((saltPairs salt).sum : Int)) = toI32 (u32leOf (temp.take 4)) →
          packValidate hashSaltLen salt temp
            = .ok (toI32 (u32leOf ((temp.drop 5).take 4))))) := by
  intro hsl salt temp hlen
  have h1 : getU32le (⟨temp, 0, ()⟩ : St Unit) = (u32leOf (temp.take 4), ⟨temp, 4, ()⟩) := by
    rw [getU32le_ok _ (by simp [hlen])]
    simp
  have h2 : getU8 (⟨temp, 4, ()⟩ : St Unit) = .ok (temp.getD 4 0, ⟨temp, 5, ()⟩) := by
    rw [getU8_ok _ (by simp [hlen])]
  have h3 : getU32le (⟨temp, 5, ()⟩ : St Unit)
      = (u32leOf ((temp.drop 5).take 4), ⟨temp, 9, ()⟩) := by
    rw [getU32le_ok _ (by simp [hlen])]
  have hrw : packValidate hsl salt temp
      = if temp.getD 4 0 ≠ 2 then .error .invalidVersion
        else if (saltPairs salt).foldl (fun acc (p : Nat) => wrap32I (acc + (p : Int)))
            (wrap32I (wrap32I (hsl + ((temp.getD 4 0 : Nat) : Int))
              + toI32 (u32leOf ((temp.drop 5).take 4)))) ≠ toI32 (u32leOf (temp.take 4))
          then .error .brokenFile
        else .ok (toI32 (u32leOf ((temp.drop 5).take 4))) := by
    simp only [packValidate, stOf, h1, h2, h3]
  refine ⟨fun hv => ?_, fun hv => ?_⟩
  · rw [hrw, if_pos hv]
  · have hrw2 : packValidate hsl salt temp
        = if wrap32I (hsl + 2 + toI32 (u32leOf ((temp.drop 5).take 4))
              + ((saltPairs salt).sum : Int)) ≠ toI32 (u32leOf (temp.take 4))
          then .error .brokenFile
          else .ok (toI32 (u32leOf ((temp.drop 5).take 4))) := by
      rw [hrw, if_neg (by rw [hv]; exact fun h => h rfl), hv]
      rw [wrap32I_add_left, foldl_wrap32I_sum]
      norm_num
    exact ⟨fun hsum => by rw [hrw2, if_pos hsum],
      fun hsum => by rw [hrw2, if_neg (by rw [hsum]; exact fun h => h rfl)]⟩

/-- Witness for C5: `hashSaltLen = 4`, salt `[01 00 02 00]`, version 2,
entryCount 0, hash `4+2+0+0x0001+0x0002 = 9` passes and yields entry
count 0. -/
theorem c5_pack_header_witness :
    (([9, 0, 0, 0, 2, 0, 0, 0, 0, 0, 0, 0] : List Nat).length = 12) ∧
      wrap32I (4 + 2
            + toI32 (u32leOf ((([9, 0, 0, 0, 2, 0, 0, 0, 0, 0, 0, 0] : List Nat).drop 5).take 4))
            + ((saltPairs [1, 0, 2, 0]).sum : Int))
          = toI32 (u32leOf (([9, 0, 0, 0, 2, 0, 0, 0, 0, 0, 0, 0] : List Nat).take 4)) ∧
      packValidate 4 [1, 0, 2, 0] [9, 0, 0, 0, 2, 0, 0, 0, 0, 0, 0, 0]
        = .ok (toI32 (u32leOf ((([9, 0, 0, 0, 2, 0, 0, 0, 0, 0, 0, 0] : List Nat).drop 5).take 4))) :=
  ⟨by decide, by decide,
    ((c5_pack_header_validation 4 [1, 0, 2, 0] [9, 0, 0, 0, 2, 0, 0, 0, 0, 0, 0, 0]
      (by decide)).2 (by decide)).2 (by decide)⟩

/-! Keystream-table lemmas. -/

theorem tableStream_succ (enc : List Nat → List Nat) (iv : List Nat) (m : Nat) :
    tableStream enc iv (m + 1) = tableStream enc iv m ++ ksBlock enc iv m := by
  simp [tableStream, List.range_succ]

theorem ksBlock_length (enc : List Nat → List Nat) (iv : List Nat)
    (henc : ∀ b, b.length = 16 → (enc b).length = 16) (hiv : iv.length = 4) :
    ∀ j, (ksBlock enc iv j).length = 16 := by
  intro j
  induction j with
  | zero => exact henc _ (by simp [hiv])
  | succ n ih => exact henc _ ih

theorem tableStream_length (enc : List Nat → List Nat) (iv : List Nat)
    (henc : ∀ b, b.length = 16 → (enc b).length = 16) (hiv : iv.length = 4) :
    ∀ m, (tableStream enc iv m).length = 16 * m := by
  intro m
  induction m with
  | zero => rfl
  | succ n ih =>
    rw [tableStream_succ, List.length_append, ih, ksBlock_length enc iv henc hiv]
    ring

theorem tableStream_add (enc : List Nat → List Nat) (iv : List Nat) (m : Nat) :
    ∀ k, ∃ ext, tableStream enc iv (m + k) = tableStream enc iv m ++ ext := by
  intro k
  induction k with
  | zero => exact ⟨[], by simp⟩
  | succ n ih =>
    obtain ⟨ext, hext⟩ := ih
    exact ⟨ext ++ ksBlock enc iv (m + n), by
      rw [← Nat.add_assoc, tableStream_succ, hext, List.append_assoc]⟩

theorem appendBlocks_stream (enc : List Nat → List Nat) (iv : List Nat)
    (henc : ∀ b, b.length = 16 → (enc b).length = 16) (hiv : iv.length = 4) :
    ∀ (k m : Nat), 0 < m →
      appendBlocks enc (tableStream enc iv m) k = tableStream enc iv (m + k) := by
  intro k
  induction k with
  | zero => intro m _; rfl
  | succ n ih =>
    intro m hm
    have hdrop : (tableStream enc iv m).drop ((tableStream enc iv m).length - 16)
        = ksBlock enc iv (m - 1) := by
      obtain ⟨m', rfl⟩ : ∃ m', m = m' + 1 := ⟨m - 1, by omega⟩
      rw [tableStream_succ]
      have hlen : (tableStream enc iv m' ++ ksBlock enc iv m').length - 16
          = (tableStream enc iv m').length := by
        rw [List.length_append, ksBlock_length enc iv henc hiv,
          tableStream_length enc iv henc hiv]
        omega
      rw [hlen, List.drop_left]
      congr 1
    rw [appendBlocks, hdrop]
    have henc' : enc (ksBlock enc iv (m - 1)) = ksBlock enc iv m := by
      obtain ⟨m', rfl⟩ : ∃ m', m = m' + 1 := ⟨m - 1, by omega⟩
      simp [ksBlock]
    rw [henc', ← tableStream_succ, ih (m + 1) (by omega)]
    congr 1
    omega

/-- C9: the `MapleTable` keystream invariant — the table built by `new`
and after every `crypt` call is a whole-block prefix of the keystream
determined by the IV (block 0 = AES(IV×4), block `i+1` = AES(block
`i`)); its length is a multiple of 16; `crypt` only appends, never
rewriting materialised bytes, so the keystream byte at a fixed index is
identical in every later call (and in every clone, which copies the
materialised prefix). -/
theorem c9_table_keystream_invariant :
    ∀ (enc : List Nat → List Nat) (iv tab dst : List Nat) (slack : Nat),
      (∀ b, b.length = 16 → (enc b).length = 16) →
      iv.length = 4 →
      (wfTable enc iv (mapleTableNew enc iv) ∧ (mapleTableNew enc iv).length % 16 = 0) ∧
      (wfTable enc iv tab →
        wfTable enc iv (tableCrypt enc slack tab dst).2 ∧
          (tableCrypt enc slack tab dst).2.length % 16 = 0 ∧
          (∃ ext, (tableCrypt enc slack tab dst).2 = tab ++ ext) ∧
          (∀ i, i < tab.length →
            (tableCrypt enc slack tab dst).2.getD i 0 = tab.getD i 0)) := by
  intro enc iv tab dst slack henc hiv
  have hnew : mapleTableNew enc iv = tableStream enc iv 1 := by
    simp [mapleTableNew, tableStream, ksBlock, List.range_succ]
  have hwef : ∀ t, wfTable enc iv t → t.length % 16 = 0 := by
    rintro t ⟨m, hm, rfl⟩
    rw [tableStream_length enc iv henc hiv]
    simp [Nat.mul_mod_right]
  refine ⟨⟨⟨1, one_pos, hnew⟩, hwef _ ⟨1, one_pos, hnew⟩⟩, ?_⟩
  rintro hwf
  have hpre : ∃ ext, (tableCrypt enc slack tab dst).2 = tab ++ ext ∧
      wfTable enc iv (tableCrypt enc slack tab dst).2 := by
    obtain ⟨m, hm, htab⟩ := hwf
    subst htab
    simp only [tableCrypt]
    by_cases hlt : (tableStream enc iv m).length < dst.length
    · rw [if_pos hlt]
      simp only [extendTable]
      rw [if_neg (show ¬(dst.length - (tableStream enc iv m).length = 0) by omega)]
      rw [appendBlocks_stream enc iv henc hiv _ m hm]
      obtain ⟨ext, hext⟩ := tableStream_add enc iv m
        ((dst.length - (tableStream enc iv m).length + 15) / 16 + slack)
      exact ⟨ext, hext,
        ⟨m + ((dst.length - (tableStream enc iv m).length + 15) / 16 + slack), by omega, rfl⟩⟩
    · rw [if_neg hlt]
      exact ⟨[], by simp, ⟨m, hm, rfl⟩⟩
  obtain ⟨ext, hext, hwf'⟩ := hpre
  refine ⟨hwf', hwef _ hwf', ⟨ext, hext⟩, ?_⟩
  intro i hi
  rw [hext, List.getD_append _ _ _ _ hi]

/-- Witness for C9: the identity block map and the zero IV — the fresh
16-byte table is well-formed and a `crypt` call of 20 bytes extends it
by whole blocks without touching the existing prefix. -/
theorem c9_table_keystream_witness :
    ((∀ b : List Nat, b.length = 16 → (id b).length = 16) ∧
        ([0, 0, 0, 0] : List Nat).length = 4 ∧
        wfTable id [0, 0, 0, 0] (mapleTableNew id [0, 0, 0, 0])) ∧
      (wfTable id [0, 0, 0, 0]
          (tableCrypt id 0 (mapleTableNew id [0, 0, 0, 0]) (List.range 20)).2 ∧
        (tableCrypt id 0 (mapleTableNew id [0, 0, 0, 0]) (List.range 20)).2.length % 16 = 0 ∧
        (∃ ext, (tableCrypt id 0 (mapleTableNew id [0, 0, 0, 0]) (List.range 20)).2
            = mapleTableNew id [0, 0, 0, 0] ++ ext) ∧
        (∀ i, i < (mapleTableNew id [0, 0, 0, 0]).length →
          (tableCrypt id 0 (mapleTableNew id [0, 0, 0, 0]) (List.range 20)).2.getD i 0
            = (mapleTableNew id [0, 0, 0, 0]).getD i 0)) :=
  ⟨⟨fun _ hb => hb, rfl,
    ((c9_table_keystream_invariant id [0, 0, 0, 0] [] [] 0 (fun _ hb => hb) rfl).1).1⟩,
    (c9_table_keystream_invariant id [0, 0, 0, 0] (mapleTableNew id [0, 0, 0, 0])
      (List.range 20) 0 (fun _ hb => hb) rfl).2
      ((c9_table_keystream_invariant id [0, 0, 0, 0] [] [] 0 (fun _ hb => hb) rfl).1).1⟩

/-- A successful `get_u8` leaves the mapped bytes and cipher state
alone and moves the cursor forward. -/
theorem getU8_frame {C : Type} (st : St C) (b : Nat) (st' : St C)
    (h : getU8 st = .ok (b, st')) :
    st'.data = st.data ∧ st'.cst = st.cst ∧ st.pos ≤ st'.pos := by
  rw [getU8] at h
  cases hcs : copyToSlice 1 st with
  | error e => rw [hcs] at h; exact absurd h (by simp)
  | ok p =>
    obtain ⟨bs, st2⟩ := p
    rw [hcs] at h
    simp only [Except.ok.injEq, Prod.mk.injEq] at h
    obtain ⟨-, h2⟩ := h
    subst h2
    simp only [copyToSlice, rawRead] at hcs
    split at hcs
    · simp only [Except.ok.injEq, Prod.mk.injEq] at hcs
      obtain ⟨-, h3⟩ := hcs
      subst h3
      exact ⟨rfl, rfl, by simp⟩
    · exact absurd hcs (by simp)

/-- The signed-absolute prefix read never touches the mapped bytes or
the cipher state, and only moves the cursor forward. -/
theorem getVarU32leAbs_frame {C : Type} (st : St C) (k : VarKind) (st1 : St C)
    (h : getVarU32leAbs st = .ok (k, st1)) :
    st1.data = st.data ∧ st1.cst = st.cst ∧ st.pos ≤ st1.pos := by
  cases hu : getU8 st with
  | error e => rw [getVarU32leAbs, hu] at h; exact absurd h (by simp)
  | ok p =>
    obtain ⟨b, st'⟩ := p
    obtain ⟨hd, hc, hp⟩ := getU8_frame st b st' hu
    rw [getVarU32leAbs, hu] at h
    simp only at h
    have hket : st1 = (if toI8 b = -128 ∨ toI8 b = 127 then getU32le st'
        else ((toI8 b).natAbs, st')).2 := by
      split at h <;> (simp only [Except.ok.injEq, Prod.mk.injEq] at h; exact h.2.symm)
    subst hket
    split
    · simp only [getU32le, rawRead]
      exact ⟨hd, hc, by simp; omega⟩
    · exact ⟨hd, hc, hp⟩

/-- C10: when the signed variable-length prefix decodes to length 0,
`decrypt_string_slice` returns the empty string, consumes only the
prefix bytes, and never invokes the cipher transform — the cipher state
(and hence the keystream position of any stateful cipher) is unchanged. -/
theorem c10_empty_string_frame :
    ∀ (C : Type) (cf : C → List Nat → List Nat × C) (w1252 : List Nat → Option (List Nat))
      (st st1 : St C) (kind : VarKind),
      getVarU32leAbs st = .ok (kind, st1) →
      (kind = .positive 0 ∨ kind = .negative 0) →
      decryptStringSlice cf w1252 st = .ok ([], st1) ∧
        st1.data = st.data ∧ st1.cst = st.cst ∧ st.pos ≤ st1.pos := by
  intro C cf w1252 st st1 kind h hk
  obtain ⟨hd, hc, hp⟩ := getVarU32leAbs_frame st kind st1 h
  refine ⟨?_, hd, hc, hp⟩
  rcases hk with rfl | rfl <;> simp [decryptStringSlice, h]

/-- Witness for C10: the single prefix byte `0x00` decodes to
`positive 0`; the call returns the empty string with the cursor after
the prefix and the (unit) cipher state untouched. -/
theorem c10_empty_string_witness :
    (getVarU32leAbs (stOf () [0]) = .ok (.positive 0, ⟨[0], 1, ()⟩) ∧
        (VarKind.positive 0 = .positive 0 ∨ VarKind.positive 0 = .negative 0)) ∧
      decryptStringSlice (fun c l => (l, c)) (fun l => some l) (stOf () [0])
          = .ok ([], ⟨[0], 1, ()⟩) ∧
        ([0] : List Nat) = [0] ∧ () = () ∧ (0 : Nat) ≤ 1 :=
  ⟨⟨rfl, Or.inl rfl⟩,
    by
      have h := c10_empty_string_frame Unit (fun c l => (l, c)) (fun l => some l)
        (stOf () [0]) ⟨[0], 1, ()⟩ (.positive 0) rfl (Or.inl rfl)
      exact ⟨h.1, rfl, rfl, by omega⟩⟩

/-- C3 (counterexample): the prefix `0x7F` escapes to the `u32`
`0x80000000`, a positive length `n = 2^31`; the claim says the raw block
is `2n` bytes, but the code computes the block size as the wrapping
`u32` product `2n mod 2^32 = 0` and returns the empty string after the
5 prefix bytes of this 5-byte stream — no `2^33`-byte block exists or is
read. -/
theorem c3_string_codec_counterexample :
    getVarU32leAbs (stOf () [0x7F, 0, 0, 0, 0x80])
        = .ok (.positive 0x80000000, ⟨[0x7F, 0, 0, 0, 0x80], 5, ()⟩) ∧
      decryptStringSlice (fun c l => (l, c)) (fun l => some l) (stOf () [0x7F, 0, 0, 0, 0x80])
        = .ok ([], ⟨[0x7F, 0, 0, 0, 0x80], 5, ()⟩) ∧
      (0x80000000 * 2 ≠ 0 ∧ 0x80000000 * 2 % U32 = 0 ∧
        ([0x7F, 0, 0, 0, 0x80] : List Nat).length = 5) :=
  ⟨rfl, rfl, by decide, by decide, by decide⟩

/-- C3 (amended): for a length prefix decoding negative `n` the raw
block is `n` bytes decoded as Windows-1252, for positive `n` it is
`2n mod 2^32` bytes (the `u32` product wraps) decoded as UTF-16LE;
byte `i` is first XOR'd with `(i + 0xAA) mod 256` (word `i` with
`(i + 0xAAAA) mod 2^16` for wide strings, re-encoded LE), the masked
block then passes through the cipher transform; a Windows-1252 decode
error yields `InvalidCharacter`, and an unpaired UTF-16 surrogate is
rejected (also as `InvalidCharacter`). -/
theorem c3_string_codec_characterization :
    ∀ (C : Type) (cf : C → List Nat → List Nat × C) (w1252 : List Nat → Option (List Nat))
      (st st1 : St C) (n : Nat),
      (getVarU32leAbs st = .ok (.negative n, st1) → n ≠ 0 →
        st1.pos + n ≤ st1.data.length →
        decryptStringSlice cf w1252 st =
          (let raw := (st1.data.drop st1.pos).take n
           let masked := raw.mapIdx fun i b => b ^^^ ((i + 0xAA) % 256)
           match w1252 (cf st1.cst masked).1 with
           | none => .error .invalidCharacter
           | some cps => .ok (cps, ⟨st1.data, st1.pos + n, (cf st1.cst masked).2⟩))) ∧
      (getVarU32leAbs st = .ok (.positive n, st1) → n * 2 % U32 ≠ 0 →
        st1.pos + n * 2 % U32 ≤ st1.data.length →
        decryptStringSlice cf w1252 st =
          (let raw := (st1.data.drop st1.pos).take (n * 2 % U32)
           let masked := ((words16 raw).mapIdx fun i w => w ^^^ ((i + 0xAAAA) % U16)).flatMap
             fun w => [w % 256, w / 256 % 256]
           match decodeUtf16 (words16 (cf st1.cst masked).1) with
           | none => .error .invalidCharacter
           | some cps =>
             .ok (cps, ⟨st1.data, st1.pos + n * 2 % U32, (cf st1.cst masked).2⟩))) ∧
      (∀ w : Nat, 0xD800 ≤ w % U16 → w % U16 < 0xE000 → decodeUtf16 [w] = none) := by
  intro C cf w1252 st st1 n
  refine ⟨?_, ?_, ?_⟩
  · intro h hn hlen
    rw [decryptStringSlice, h]
    simp only [if_neg hn]
    rw [copyToSlice_ok _ _ hlen]
    simp only [cryptSt, maskNarrow]
  · intro h hn hlen
    rw [decryptStringSlice, h]
    simp only [if_neg hn]
    rw [copyToSlice_ok _ _ hlen]
    simp only [cryptSt, maskWide]
  · intro w h1 h2
    rw [decodeUtf16]
    simp only [if_neg (show ¬(w % U16 < 0xD800 ∨ 0xE000 ≤ w % U16) by omega)]
    split <;> rfl

/-- Witness for C3: the spec's seed test — prefix `0xFF` (−1), one
payload byte `0x01`, identity cipher and decoder: the mask gives
`0x01 XOR 0xAA = 0xAB`. -/
theorem c3_string_codec_witness :
    (getVarU32leAbs (stOf () [0xFF, 0x01])
          = .ok (.negative 1, ⟨[0xFF, 0x01], 1, ()⟩) ∧
        (1 : Nat) ≠ 0 ∧ (1 : Nat) + 1 ≤ 2) ∧
      decryptStringSlice (fun c l => (l, c)) (fun l => some l) (stOf () [0xFF, 0x01])
        = .ok ([0xAB], ⟨[0xFF, 0x01], 2, ()⟩) :=
  ⟨⟨rfl, by decide, by decide⟩,
    ((c3_string_codec_characterization Unit (fun c l => (l, c)) (fun l => some l)
        (stOf () [0xFF, 0x01]) ⟨[0xFF, 0x01], 1, ()⟩ 1).1 rfl (by decide) (by decide)).trans rfl⟩

/-! Lemmas for the version hash and the WZ open. -/

theorem u32leOf_lt (l : List Nat) : u32leOf l < U32 := by
  simp only [u32leOf, u32le, U32]; omega

theorem mapleHash_lt (v : Nat) : mapleHash v < U16 := by
  rw [mapleHash]
  generalize decBytes v = l
  induction l using List.reverseRecOn with
  | nil => norm_num [U16]
  | append_singleton xs x ih =>
    rw [List.foldl_append, List.foldl_cons, List.foldl_nil]
    exact Nat.mod_lt _ (by norm_num [U16])

theorem decDigitsAux_lt : ∀ (fuel n : Nat), ∀ d ∈ decDigitsAux fuel n, d < 10 := by
  intro fuel
  induction fuel with
  | zero => intro n d hd; simp [decDigitsAux] at hd
  | succ f ih =>
    intro n d hd
    rw [decDigitsAux] at hd
    split at hd
    · simp at hd; omega
    · simp only [List.mem_append, List.mem_singleton] at hd
      rcases hd with hd | rfl
      · exact ih (n / 10) d hd
      · omega

theorem foldl_hash_eq : ∀ (l : List Nat), (∀ b ∈ l, b < 255) → ∀ init : Nat,
    l.foldl (fun h b => ((h <<< 5) % U16 + (b + 1) % 256) % U16) init
      = l.foldl (fun h b => ((h <<< 5) % U16 + (b + 1)) % U16) init := by
  intro l
  induction l with
  | nil => intro _ _; rfl
  | cons b bs ih =>
    intro hmem init
    simp only [List.foldl_cons]
    rw [show (b + 1) % 256 = b + 1 from Nat.mod_eq_of_lt (by have := hmem b (by simp); omega)]
    exact ih (fun x hx => hmem x (by simp [hx])) _

theorem mapleHash_eq_ascii (v : Nat) : mapleHash v = specAsciiHash v := by
  rw [mapleHash, specAsciiHash]
  refine foldl_hash_eq _ ?_ 0
  intro b hb
  simp only [decBytes, List.mem_map] at hb
  obtain ⟨d, hd, rfl⟩ := hb
  have := decDigitsAux_lt (v % U16 + 1) (v % U16) d hd
  omega

theorem hashEnc_limbs (v : Nat) :
    hashEnc v = 0xff ^^^ mapleHash v % 256 ^^^ mapleHash v / 256 := by
  have hlt := mapleHash_lt v
  rw [hashEnc]
  simp only [show (List.range 4) = [0, 1, 2, 3] by rfl, List.foldl_cons, List.foldl_nil]
  have e0 : checkedShr16 (mapleHash v) (0 <<< 3) = mapleHash v := by
    rw [checkedShr16, if_pos (by decide), show (0 <<< 3 : Nat) = 0 by decide,
      Nat.shiftRight_zero]
    exact Nat.mod_eq_of_lt hlt
  have e1 : checkedShr16 (mapleHash v) (1 <<< 3) = mapleHash v / 256 := by
    rw [checkedShr16, if_pos (by decide), Nat.shiftRight_eq_div_pow,
      show (2 : Nat) ^ (1 <<< 3) = 256 by decide]
    exact Nat.mod_eq_of_lt (by simp only [U16] at *; omega)
  have e2 : checkedShr16 (mapleHash v) (2 <<< 3) = 0 := by
    rw [checkedShr16, if_neg (by decide)]
  have e3 : checkedShr16 (mapleHash v) (3 <<< 3) = 0 := by
    rw [checkedShr16, if_neg (by decide)]
  rw [e0, e1, e2, e3]
  have hand : ∀ n : Nat, n &&& 0xff = n % 256 := by
    intro n
    have h : (0xff : Nat) = 2 ^ 8 - 1 := by norm_num
    rw [h, Nat.and_pow_two_sub_one_eq_mod]
  rw [hand, hand]
  have hq : mapleHash v / 256 % 256 = mapleHash v / 256 := by
    refine Nat.mod_eq_of_lt ?_
    simp only [U16] at hlt
    omega
  rw [hq]
  simp [Nat.xor_zero]

theorem wizet_version_check_iff (data : List Nat) (ver : Nat)
    (hsig : u32leOf (data.take 4) = wizetSignature)
    (hhdr : (data.length % U64 + U64 - u64leOf ((data.drop 4).take 8)) % U64
      = u32leOf ((data.drop 12).take 4))
    (h17 : 17 ≤ u32leOf ((data.drop 12).take 4))
    (hlen : u32leOf ((data.drop 12).take 4) - 1 ≤ data.length)
    (hUtf : validUtf8 ((data.drop 16).take (u32leOf ((data.drop 12).take 4) - 17)) = true) :
    (wizetNew data ver false = .error .invalidVersion
      ↔ u16At data (u32leOf ((data.drop 12).take 4)) ≠ hashEnc ver) := by
  set hs := u32leOf ((data.drop 12).take 4) with hhs
  have hsU : hs < U32 := u32leOf_lt _
  have hlen16 : 16 ≤ data.length := by omega
  have h1 : getU32le (⟨data, 0, ()⟩ : St Unit) = (u32leOf (data.take 4), ⟨data, 4, ()⟩) := by
    rw [getU32le_ok _ (by simp; omega)]
    simp
  have h2 : getU64le (⟨data, 4, ()⟩ : St Unit)
      = (u64leOf ((data.drop 4).take 8), ⟨data, 12, ()⟩) := by
    rw [getU64le_ok _ (by simp; omega)]
  have h3 : getU32le (⟨data, 12, ()⟩ : St Unit) = (hs, ⟨data, 16, ()⟩) := by
    rw [getU32le_ok _ (by simp; omega)]
  have hcopy : copyToSlice ((hs % U64 + U64 - (⟨data, 16, ()⟩ : St Unit).pos - 1) % U64)
        (⟨data, 16, ()⟩ : St Unit)
      = .ok ((data.drop 16).take (hs - 17), ⟨data, 16 + (hs - 17), ()⟩) := by
    have harg : (hs % U64 + U64 - (⟨data, 16, ()⟩ : St Unit).pos - 1) % U64 = hs - 17 := by
      show (hs % U64 + U64 - 16 - 1) % U64 = hs - 17
      have hb : hs < 4294967296 := by simpa [U32] using hsU
      simp only [U64]
      omega
    rw [harg, copyToSlice_ok (hs - 17) ⟨data, 16, ()⟩
      (show 16 + (hs - 17) ≤ data.length by omega)]
  have hrw : wizetNew data ver false
      = if hashEnc ver ≠ u16At data hs then .error .invalidVersion else .ok hs := by
    rw [wizetNew]
    rw [show (stOf () data : St Unit) = ⟨data, 0, ()⟩ from rfl]
    rw [h1]
    show (if u32leOf (data.take 4) ≠ wizetSignature then Except.error Err.brokenFile
      else _) = _
    rw [if_neg (by rw [hsig]; exact fun h => h rfl)]
    rw [h2]
    show (if (data.length % U64 + U64 - u64leOf ((data.drop 4).take 8)) % U64
        ≠ (getU32le (⟨data, 12, ()⟩ : St Unit)).1
      then Except.error Err.brokenFile else _) = _
    rw [h3]
    show (if (data.length % U64 + U64 - u64leOf ((data.drop 4).take 8)) % U64 ≠ hs
      then Except.error Err.brokenFile else _) = _
    rw [if_neg (by rw [hhdr]; exact fun h => h rfl)]
    show wizetTail ver false hs (⟨data, 16, ()⟩ : St Unit) = _
    rw [wizetTail]
    rw [hcopy]
    show (if ¬ validUtf8 ((data.drop 16).take (hs - 17)) = true
      then Except.error (Err.panic "from_utf8") else _) = _
    rw [if_neg (show ¬¬(validUtf8 ((data.drop 16).take (hs - 17)) = true)
      from fun h => h hUtf)]
    rfl
  rw [hrw]
  by_cases hne : hashEnc ver ≠ u16At data hs
  · rw [if_pos hne]
    constructor
    · intro _
      exact fun h => hne h.symm
    · intro _
      rfl
  · rw [if_neg hne]
    push_neg at hne
    constructor
    · intro h
      exact absurd h (by simp)
    · intro h
      exact absurd hne.symm h

/-- C4 (counterexample): the claimed digit fold disagrees with the code
(for version 0 the code hashes the ASCII byte `48`, giving 49, while the
claim's `(h<<5)+(d+1)` over digit values gives 1); and on a container
whose signature and header-size checks pass but whose copyright byte
`0xFF` is invalid UTF-8, `WizetFile::new` panics in `from_utf8` even
though the `u16` at `headerSize` differs from the encoded hash, so the
open does not fail with `InvalidVersion` as the claimed equivalence
requires. -/
theorem c4_version_hash_counterexample :
    (mapleHash 0 = 49 ∧ specDigitHash 0 = 1 ∧ mapleHash 0 ≠ specDigitHash 0) ∧
      (u32leOf (wzBadCopyright.take 4) = wizetSignature ∧
        (wzBadCopyright.length % U64 + U64 - u64leOf ((wzBadCopyright.drop 4).take 8)) % U64
          = u32leOf ((wzBadCopyright.drop 12).take 4) ∧
        u32leOf ((wzBadCopyright.drop 12).take 4) = 18 ∧
        u16At wzBadCopyright 18 ≠ hashEnc 1 ∧
        wizetNew wzBadCopyright 1 false = .error (.panic "from_utf8") ∧
        Err.panic "from_utf8" ≠ Err.invalidVersion) :=
  ⟨⟨by decide, by decide, by decide⟩,
    by decide, by decide, by decide, by decide, rfl, by decide⟩

/-- C4 (amended): the 16-bit version hash folds
`h ← (h<<5) + (b+1)` over the ASCII bytes `b` of the decimal rendering
(not over the raw digit values); the encoded form XOR-folds the hash's
byte limbs into an initial `0xFF`; and opening with `noVersion = false`,
given the signature and header-size checks pass and the copyright block
parses (the header is large enough and its bytes are valid UTF-8), fails
with `InvalidVersion` iff the `u16` at `headerSize` differs from the
encoded hash. -/
theorem c4_version_hash_characterization :
    ∀ (data : List Nat) (ver v : Nat),
      mapleHash v = specAsciiHash v ∧
      hashEnc v = 0xff ^^^ mapleHash v % 256 ^^^ mapleHash v / 256 ∧
      (u32leOf (data.take 4) = wizetSignature →
        (data.length % U64 + U64 - u64leOf ((data.drop 4).take 8)) % U64
            = u32leOf ((data.drop 12).take 4) →
        17 ≤ u32leOf ((data.drop 12).take 4) →
        u32leOf ((data.drop 12).take 4) - 1 ≤ data.length →
        validUtf8 ((data.drop 16).take (u32leOf ((data.drop 12).take 4) - 17)) = true →
        (wizetNew data ver false = .error .invalidVersion
          ↔ u16At data (u32leOf ((data.drop 12).take 4)) ≠ hashEnc ver)) :=
  fun data ver v =>
    ⟨mapleHash_eq_ascii v, hashEnc_limbs v,
      fun hsig hhdr h17 hlen hUtf => wizet_version_check_iff data ver hsig hhdr h17 hlen hUtf⟩

/-- Witness for C4: a well-formed 19-byte container (`headerSize = 17`,
empty copyright) with version 1; the `u16` at 17 equals
`hash_enc(1) = 205`, and the claim's equivalence is produced by the
theorem at this input. -/
theorem c4_version_hash_witness :
    (u32leOf (wzOkHeader.take 4) = wizetSignature ∧
        (wzOkHeader.length % U64 + U64 - u64leOf ((wzOkHeader.drop 4).take 8)) % U64
          = u32leOf ((wzOkHeader.drop 12).take 4) ∧
        17 ≤ u32leOf ((wzOkHeader.drop 12).take 4) ∧
        u32leOf ((wzOkHeader.drop 12).take 4) - 1 ≤ wzOkHeader.length ∧
        validUtf8 ((wzOkHeader.drop 16).take (u32leOf ((wzOkHeader.drop 12).take 4) - 17))
          = true) ∧
      (wizetNew wzOkHeader 1 false = .error .invalidVersion
        ↔ u16At wzOkHeader (u32leOf ((wzOkHeader.drop 12).take 4)) ≠ hashEnc 1) :=
  ⟨⟨by decide, by decide, by decide, by decide, by decide⟩,
    (c4_version_hash_characterization wzOkHeader 1 0).2.2 (by decide) (by decide) (by decide)
      (by decide) (by decide)⟩

/-- C6 (counterexample): the leading kind byte `0` makes the directory
parser panic ("invalid element kind"), not fail with `UnexpectedData`;
and an alias entry's offset field is relative to `parentOffset`: with
field value 9 and `parentOffset = 2` the target read sits at byte 11
(`realKind 3`, masked name byte `0xBA`), while byte 9 — where the
claimed absolute seek would land — is 0. -/
theorem c6_directory_dispatch_counterexample :
    (dirTryFromAccessor (fun c l => (l, c)) (fun l => some l)
        (fun off st => .ok ((7, off), st)) 0 0 (stOf () [0])
        = .error (.panic "invalid element kind") ∧
      Err.panic "invalid element kind" ≠ Err.unexpectedData "unexpected element kind") ∧
      ((match dirTryFromAccessor (fun c l => (l, c)) (fun l => some l)
          (fun off st => .ok ((7, off), st)) 2 0
          (stOf () [2, 9, 0, 0, 0, 0, 0, 0, 0, 0, 0, 3, 0xFF, 0x10]) with
        | .ok (some e, st) => some (e.name, e.kindTag, e.parentOffset, st.pos)
        | _ => none) = some ([0xBA], 3, 2, 11) ∧
        ([2, 9, 0, 0, 0, 0, 0, 0, 0, 0, 0, 3, 0xFF, 0x10] : List Nat).getD 9 0 = 0 ∧
        ([2, 9, 0, 0, 0, 0, 0, 0, 0, 0, 0, 3, 0xFF, 0x10] : List Nat).getD 11 0 = 3) :=
  ⟨⟨rfl, by decide⟩, rfl, by decide, by decide⟩

/-- C6 (amended): dispatch on the leading kind byte — `1` skips 10 bytes
and contributes no entry; `2` reads a `u32` offset, resolves it
relative to `parentOffset`, seek-backs there to read
`(u8 realKind, string name)` (cursor restored), and continues with the
resolved kind; `3`/`4` read the name inline; any other leading byte
panics ("invalid element kind"); a resolved kind outside `{3, 4}` fails
with `UnexpectedData` after the size/checksum/offset fields. -/
theorem c6_directory_dispatch :
    ∀ (C : Type) (cf : C → List Nat → List Nat × C) (w1252 : List Nat → Option (List Nat))
      (imageParse : Nat → St C → Except Err ((Nat × Nat) × St C))
      (parentOffset verHash : Nat) (st st1 : St C) (b : Nat),
      getU8 st = .ok (b, st1) →
      (b = 1 → dirTryFromAccessor cf w1252 imageParse parentOffset verHash st
          = .ok (none, advance 10 st1)) ∧
      (∀ (k : Nat) (nm : List Nat) (st2 : St C), b = 2 →
        seekBack (((getU32le st1).1 + parentOffset) % U64) (dirAliasTarget cf w1252)
            (getU32le st1).2 = .ok ((k, nm), st2) →
        dirTryFromAccessor cf w1252 imageParse parentOffset verHash st
          = dirFinish imageParse parentOffset verHash k nm st2) ∧
      (∀ (nm : List Nat) (st2 : St C), b = 3 ∨ b = 4 →
        getDecryptString cf w1252 st1 = .ok (nm, st2) →
        dirTryFromAccessor cf w1252 imageParse parentOffset verHash st
          = dirFinish imageParse parentOffset verHash b nm st2) ∧
      (b ≠ 1 → b ≠ 2 → b ≠ 3 → b ≠ 4 →
        dirTryFromAccessor cf w1252 imageParse parentOffset verHash st
          = .error (.panic "invalid element kind")) ∧
      (∀ (k : Nat) (nm : List Nat) (stf stA stB : St C) (sz ck : Int), k ≠ 3 → k ≠ 4 →
        getVarI32le stf = .ok (sz, stA) → getVarI32le stA = .ok (ck, stB) →
        dirFinish imageParse parentOffset verHash k nm stf
          = .error (.unexpectedData "unexpected element kind")) := by
  intro C cf w1252 imageParse po vh st st1 b hu
  refine ⟨?_, ?_, ?_, ?_, ?_⟩
  · rintro rfl
    rw [dirTryFromAccessor, hu]
    rfl
  · rintro k nm st2 rfl hseek
    rw [dirTryFromAccessor, hu]
    simp [hseek]
  · rintro nm st2 (rfl | rfl) hdec <;>
      (rw [dirTryFromAccessor, hu]; simp [hdec])
  · intro hb1 hb2 hb3 hb4
    rw [dirTryFromAccessor, hu]
    simp [hb1, hb2, hb3, hb4]
  · intro k nm stf stA stB sz ck hk3 hk4 hv1 hv2
    rw [dirFinish, hv1]
    simp [hv2, hk3, hk4]

/-- Witness for C6: on the single byte `1` the parser reads the kind byte,
skips 10 bytes and contributes no entry. -/
theorem c6_directory_dispatch_witness :
    getU8 (stOf () [1]) = .ok (1, ⟨[1], 1, ()⟩) ∧
      dirTryFromAccessor (fun c l => (l, c)) (fun l => some l)
          (fun off st => .ok ((7, off), st)) 5 0 (stOf () [1])
        = .ok (none, advance 10 ⟨[1], 1, ()⟩) :=
  ⟨rfl,
    (c6_directory_dispatch Unit (fun c l => (l, c)) (fun l => some l)
        (fun off st => .ok ((7, off), st)) 5 0 (stOf () [1]) ⟨[1], 1, ()⟩ 1 rfl).1 rfl⟩

/-- Evaluation of `get_i32_le` at an in-bounds cursor. -/
theorem getI32le_read {C : Type} (st : St C) (h : st.pos ≤ st.data.length) :
    getI32le st = (toI32 (u32leOf ((st.data.drop st.pos).take 4)),
      ⟨st.data, st.pos + min 4 (st.data.length - st.pos), st.cst⟩) := by
  simp [getI32le, getU32le, rawRead, Nat.min_eq_left h]

/-- Dropping past an `i32` read lands at `pos + 4` (or off the end either way). -/
theorem drop_pos4 (data : List Nat) (pos : Nat) (h : pos < data.length) :
    data.drop (pos + min 4 (data.length - pos)) = data.drop (pos + 4) := by
  rcases le_or_lt 4 (data.length - pos) with h4 | h4
  · rw [Nat.min_eq_left h4]
  · rw [List.drop_eq_nil_of_le (by omega), List.drop_eq_nil_of_le (by omega)]

/-- The same, shifted by an in-bounds chunk size. -/
theorem drop_pos4_size (data : List Nat) (pos sz : Nat) (h : pos < data.length)
    (hs : sz ≤ data.length - (pos + min 4 (data.length - pos))) :
    data.drop (pos + min 4 (data.length - pos) + sz) = data.drop (pos + 4 + sz) := by
  rcases le_or_lt 4 (data.length - pos) with h4 | h4
  · rw [Nat.min_eq_left h4]
  · have hz : sz = 0 := by omega
    subst hz
    rw [List.drop_eq_nil_of_le (by omega), List.drop_eq_nil_of_le (by omega)]

/-- The chunked canvas read loop equals the claim's record-sequence
function on the remaining bytes (fuel-indexed induction on the unread
byte count). -/
theorem chunkLoopAux {C : Type} (cf : C → List Nat → List Nat × C) (n : Nat) :
    ∀ (st : St C) (acc : List Nat), st.data.length - st.pos ≤ n → st.pos ≤ st.data.length →
      canvasChunkLoop cf st acc
        = match specChunkSeq cf st.cst (st.data.drop st.pos) with
          | .error e => .error e
          | .ok p => .ok (acc ++ p.1, ⟨st.data, st.data.length, p.2⟩) := by
  induction n with
  | zero =>
    intro st acc h1 h2
    have hpos : st.pos = st.data.length := by omega
    rw [canvasChunkLoop, hpos]
    simp [specChunkSeq]
    rw [← hpos]
  | succ n ih =>
    intro st acc h1 h2
    rcases eq_or_lt_of_le h2 with hp | hp
    · rw [canvasChunkLoop, hp]
      simp [specChunkSeq]
      rw [← hp]
    · have hd0 : ¬ st.data.length = 0 := by omega
      have hne : ¬ st.pos = st.data.length := by omega
      have hnl : ¬ st.data.length < st.pos := by omega
      obtain ⟨b, bs, hdp⟩ : ∃ b bs, st.data.drop st.pos = b :: bs := by
        cases hdp : st.data.drop st.pos with
        | nil =>
          have := congrArg List.length hdp
          simp at this
          omega
        | cons b bs => exact ⟨b, bs, rfl⟩
      have hlbs : bs.length + 1 = st.data.length - st.pos := by
        have := congrArg List.length hdp
        simpa using this.symm
      have hg := getI32le_read st h2
      have hg1 : (getI32le st).1 = toI32 (u32leOf (List.take 4 (b :: bs))) := by
        rw [hg, hdp]
      have hg2 : (getI32le st).2
          = (⟨st.data, st.pos + min 4 (st.data.length - st.pos), st.cst⟩ : St C) := by
        rw [hg]
      rw [canvasChunkLoop, if_neg hd0, if_neg hne, dif_neg hnl, hg1, hg2, hdp, specChunkSeq]
      simp only [chunkSize]
      have hdrop4 : (b :: bs).drop 4 = st.data.drop (st.pos + 4) := by
        rw [← hdp, List.drop_drop, Nat.add_comm]
      have hrest : ((b :: bs).drop 4).length
          = st.data.length - (st.pos + min 4 (st.data.length - st.pos)) := by
        simp only [List.length_drop, List.length_cons]
        omega
      by_cases hsz : ofI64 (toI32 (u32leOf (List.take 4 (b :: bs)))) ≤ ((b :: bs).drop 4).length
      · rw [if_pos hsz]
        have hlen : ((st.data.drop (st.pos + min 4 (st.data.length - st.pos))).take
            (ofI64 (toI32 (u32leOf (List.take 4 (b :: bs)))))).length
            = ofI64 (toI32 (u32leOf (List.take 4 (b :: bs)))) := by
          simp only [List.length_take, List.length_drop]
          omega
        have hcopy : copyToSlice (ofI64 (toI32 (u32leOf (List.take 4 (b :: bs)))))
            (⟨st.data, st.pos + min 4 (st.data.length - st.pos), st.cst⟩ : St C)
            = .ok ((st.data.drop (st.pos + 4)).take
                  (ofI64 (toI32 (u32leOf (List.take 4 (b :: bs))))),
                ⟨st.data, st.pos + min 4 (st.data.length - st.pos)
                  + ofI64 (toI32 (u32leOf (List.take 4 (b :: bs)))), st.cst⟩) := by
          simp only [copyToSlice, rawRead, Nat.min_eq_left (by omega : st.pos + min 4 (st.data.length - st.pos) ≤ st.data.length), hlen, if_pos]
          rw [drop_pos4 _ _ hp]
        split
        · rename_i e hcs
          rw [hcopy] at hcs
          exact Except.noConfusion hcs
        · rename_i p hcs
          rw [hcopy] at hcs
          simp only [Except.ok.injEq] at hcs
          subst hcs
          simp only [cryptSt]
          rw [ih ⟨st.data, st.pos + min 4 (st.data.length - st.pos)
                + ofI64 (toI32 (u32leOf (List.take 4 (b :: bs)))),
                (cf st.cst ((st.data.drop (st.pos + 4)).take
                  (ofI64 (toI32 (u32leOf (List.take 4 (b :: bs))))))).2⟩
              (acc ++ (cf st.cst ((st.data.drop (st.pos + 4)).take
                  (ofI64 (toI32 (u32leOf (List.take 4 (b :: bs))))))).1)
              (by dsimp only; omega) (by dsimp only; omega)]
          dsimp only
          rw [hdrop4, List.drop_drop, drop_pos4_size st.data st.pos _ hp (by omega)]
          cases hv : specChunkSeq cf
              (cf st.cst ((st.data.drop (st.pos + 4)).take
                (ofI64 (toI32 (u32leOf (List.take 4 (b :: bs))))))).2
              (st.data.drop (st.pos + 4 + ofI64 (toI32 (u32leOf (List.take 4 (b :: bs)))))) with
          | error e => rfl
          | ok p => simp [List.append_assoc]
      · rw [if_neg hsz]
        have hcopy2 : copyToSlice (ofI64 (toI32 (u32leOf (List.take 4 (b :: bs)))))
            (⟨st.data, st.pos + min 4 (st.data.length - st.pos), st.cst⟩ : St C)
            = .error (.panic "copy_to_slice") := by
          simp only [copyToSlice, rawRead, Nat.min_eq_left
            (by omega : st.pos + min 4 (st.data.length - st.pos) ≤ st.data.length)]
          rw [if_neg (by simp only [List.length_take, List.length_drop]; omega)]
        split
        · rename_i e hcs
          rw [hcopy2] at hcs
          simp only [Except.error.injEq] at hcs
          subst hcs
          rfl
        · rename_i p hcs
          rw [hcopy2] at hcs
          exact Except.noConfusion hcs


/-- The chunked canvas read loop equals the claim's record-sequence
function on the remaining bytes. -/
theorem canvasChunkLoop_eq_spec {C : Type} (cf : C → List Nat → List Nat × C)
    (st : St C) (acc : List Nat) (h : st.pos ≤ st.data.length) :
    canvasChunkLoop cf st acc
      = match specChunkSeq cf st.cst (st.data.drop st.pos) with
        | .error e => .error e
        | .ok p => .ok (acc ++ p.1, ⟨st.data, st.data.length, p.2⟩) :=
  chunkLoopAux cf (st.data.length - st.pos) st acc le_rfl h

/-- C7 (counterexample): `data_size` is read as a fixed 4-byte `i32`,
not a `varI32`: on a stream whose byte at the size field is `5`
followed by `1 0 0`, the code reads size field `0x105` (so
`data_size = 260`) and ends at byte 11, while the claim's `varI32`
variant reads `5` (so `data_size = 4`) and ends at byte 8.  Also the
inflate check is not an exactness check: a decoder yielding 3 bytes
for a format of `data_size(1,1) = 2` succeeds with the 2-byte prefix
instead of failing. -/
theorem c7_canvas_payload_counterexample :
    (canvasAttrTail (stOf () [1, 0, 9, 9, 9, 9, 5, 1, 0, 0, 9])
        = .ok ((1, 260), ⟨[1, 0, 9, 9, 9, 9, 5, 1, 0, 0, 9], 11, ()⟩) ∧
      specCanvasAttrTailVar (stOf () [1, 0, 9, 9, 9, 9, 5, 1, 0, 0, 9])
        = .ok ((1, 4), ⟨[1, 0, 9, 9, 9, 9, 5, 1, 0, 0, 9], 8, ()⟩)) ∧
      (canvasDecode (fun c l => (l, c)) (fun x => some [7, 8, 9]) 1 1
          (stOf () [1, 0, 9, 9, 9, 9, 3, 0, 0, 0, 0, 0x78, 0x9C])
        = .ok ([7, 8], ⟨[1, 0, 9, 9, 9, 9, 3, 0, 0, 0, 0, 0x78, 0x9C], 13, ()⟩) ∧
        (3 : Nat) ≠ ofI64 (formatDataSize 1 1 1)) :=
  ⟨⟨rfl, rfl⟩, rfl, by decide⟩

/-- C7 (amended): the attribute tail reads `format = varI32 + u8`
(unknown tags fail `UnexpectedData`), skips 4 bytes, reads
`data_size = i32LE - 1` (a fixed-width field) and skips 1 byte; the
payload peeks a `u16LE` with the cursor restored: `0x9C78` reads a
contiguous `data_size`-byte blob, anything else reads the rest of the
stream as `(i32 chunkLen, chunk bytes)` records passed through the
cipher and concatenated; inflation must yield at least
`format.data_size(w, h)` bytes, else `BrokenFile`, and exactly that
prefix of the inflated bytes is kept. -/
theorem c7_canvas_payload_characterization :
    ∀ (C : Type) (cf : C → List Nat → List Nat × C)
      (inflate : List Nat → Option (List Nat)) (w h : Int)
      (st stA stB : St C) (v : Int) (b : Nat) (ds : Nat),
      (getVarI32le st = .ok (v, stA) → getU8 stA = .ok (b, stB) →
        (wrap32I (v + b) ∉ canvasFormats →
          canvasAttrTail st = .error (.unexpectedData "canvas format")) ∧
        (wrap32I (v + b) ∈ canvasFormats →
          canvasAttrTail st
            = .ok ((wrap32I (v + b),
                ofI64 (wrap32I ((getI32le (advance 4 stB)).1 - 1))),
                advance 1 (getI32le (advance 4 stB)).2))) ∧
      (∀ st2 : St C, trySeekCur (-2) (getU16le st).2 = .ok st2 →
        ((getU16le st).1 = 0x9C78 → canvasPayload cf ds st = copyToSlice ds st2) ∧
        ((getU16le st).1 ≠ 0x9C78 → st2.pos ≤ st2.data.length →
          canvasPayload cf ds st
            = match specChunkSeq cf st2.cst (st2.data.drop st2.pos) with
              | .error e => .error e
              | .ok p => .ok (p.1, ⟨st2.data, st2.data.length, p.2⟩))) ∧
      (∀ (fmt : Int) (st1 st2 : St C) (payload out : List Nat),
        canvasAttrTail st = .ok ((fmt, ds), st1) →
        canvasPayload cf ds st1 = .ok (payload, st2) →
        inflate payload = some out →
        (out.length < ofI64 (formatDataSize fmt w h) →
          canvasDecode cf inflate w h st = .error .brokenFile) ∧
        (ofI64 (formatDataSize fmt w h) ≤ out.length →
          canvasDecode cf inflate w h st
            = .ok (out.take (ofI64 (formatDataSize fmt w h)), st2))) := by
  intro C cf inflate w h st stA stB v b ds
  refine ⟨?_, ?_, ?_⟩
  · intro hvar hu8
    constructor
    · intro hfmt
      rw [canvasAttrTail, hvar]
      simp [hu8, hfmt]
    · intro hfmt
      rw [canvasAttrTail, hvar]
      simp [hu8, hfmt]
  · intro st2 hseek
    constructor
    · intro hflag
      rw [canvasPayload]
      simp [hseek, hflag]
    · intro hflag hle
      rw [canvasPayload]
      simp only [hseek, hflag, if_pos, ne_eq, not_false_iff]
      rw [canvasChunkLoop_eq_spec cf st2 [] hle]
      cases hv : specChunkSeq cf st2.cst (st2.data.drop st2.pos) with
      | error e => rfl
      | ok p => simp
  · intro fmt st1 st2 payload out h1 h2 h3
    constructor
    · intro hlt
      rw [canvasDecode, h1]
      simp only [h2, h3]
      rw [if_pos (by omega)]
    · intro hge
      rw [canvasDecode, h1]
      simp only [h2, h3]
      rw [if_neg (by omega)]

/-- Witness for C7: a concrete canvas stream (format 1, `data_size` 2,
zlib-flagged blob `0x78 0x9C`) whose 2-byte inflate output is returned
whole; the decode equality is produced by the amended theorem. -/
theorem c7_canvas_payload_witness :
    (canvasAttrTail (stOf () [1, 0, 9, 9, 9, 9, 3, 0, 0, 0, 0, 0x78, 0x9C])
        = .ok (((1 : Int), (2 : Nat)),
            (⟨[1, 0, 9, 9, 9, 9, 3, 0, 0, 0, 0, 0x78, 0x9C], 11, ()⟩ : St Unit)) ∧
      canvasPayload (fun c l => (l, c)) 2
          (⟨[1, 0, 9, 9, 9, 9, 3, 0, 0, 0, 0, 0x78, 0x9C], 11, ()⟩ : St Unit)
        = .ok ([0x78, 0x9C], ⟨[1, 0, 9, 9, 9, 9, 3, 0, 0, 0, 0, 0x78, 0x9C], 13, ()⟩)) ∧
      canvasDecode (fun c l => (l, c)) (fun x => some [7, 8]) 1 1
          (stOf () [1, 0, 9, 9, 9, 9, 3, 0, 0, 0, 0, 0x78, 0x9C])
        = .ok ([7, 8], ⟨[1, 0, 9, 9, 9, 9, 3, 0, 0, 0, 0, 0x78, 0x9C], 13, ()⟩) :=
  ⟨⟨rfl, rfl⟩, by
    have h := ((c7_canvas_payload_characterization Unit (fun c l => (l, c))
        (fun x => some [7, 8]) 1 1
        (stOf () [1, 0, 9, 9, 9, 9, 3, 0, 0, 0, 0, 0x78, 0x9C])
        (stOf () []) (stOf () []) 0 0 2).2.2 1
        (⟨[1, 0, 9, 9, 9, 9, 3, 0, 0, 0, 0, 0x78, 0x9C], 11, ()⟩ : St Unit)
        (⟨[1, 0, 9, 9, 9, 9, 3, 0, 0, 0, 0, 0x78, 0x9C], 13, ()⟩ : St Unit)
        [0x78, 0x9C] [7, 8] rfl rfl rfl).2 (by decide)
    exact h.trans rfl⟩

end Horntail
